import Mathlib

/-!
Verification development for the crafting dependency and transformation
resolution engine of the Abiotic-Crafting-Notes backend.

The definitions below are shallow embeddings of the Python functions in
`backend/app/services/recipe_service.py` and `backend/app/api/items.py`.
Recursive database walks are embedded as structurally recursive functions
over an in-memory catalog list; the unbounded Python recursions and while
loops are given an explicit fuel argument, and the exported entry points
fix the fuel at a value proved (or argued in the accompanying theorems)
to be large enough that the fuel never runs out on the computations the
original code performs.
-/

/-! ## Catalog data model (recipe_service.py)

An `Item` row, as converted by `_item_to_recipe`, carries a list of
crafting variants, each an ordered ingredient list.  Fields of the row
that no resolution routine reads (icon, category, weight, ...) are left
out of the embedding.  -/

/-- An ingredient entry of a recipe variant: `{item_id, item_name, quantity}`
as read by `_item_to_recipe` in recipe_service.py. -/
structure CIngredient where
  itemId : String
  itemName : String
  quantity : Nat
deriving DecidableEq, Repr

/-- One crafting variant of a recipe (`RecipeVariant`): an ordered ingredient
list plus the crafting station. -/
structure RVariant where
  ingredients : List CIngredient
  station : Option String
deriving DecidableEq, Repr

/-- The slice of a `Recipe` row (recipe_service.get_recipe) that the
dependency resolution reads: id, names and the variant list. -/
structure CatRecipe where
  id : String
  name : String
  nameFr : Option String
  variants : List RVariant
deriving DecidableEq, Repr

/-- The read-only catalog: the `Item` table as a list of rows, in table
order.  `db.query(Item).filter(Item.id == item_id).first()` becomes a
`List.find?` over this list. -/
abbrev Catalog := List CatRecipe

/-- Embedding of `get_recipe` / the `Item` lookup by primary key: the first
row whose id matches, if any. -/
def getRecipe (cat : Catalog) (itemId : String) : Option CatRecipe :=
  cat.find? (fun it => it.id == itemId)

/-- The computed dependency tree node (`DependencyNode` schema):
`{item_id, item_name, item_name_fr, quantity, craftable, children}`. -/
inductive DependencyNode where
  | mk (itemId itemName : String) (itemNameFr : Option String) (quantity : Nat)
       (craftable : Bool) (children : List DependencyNode)
deriving Repr

def DependencyNode.itemId : DependencyNode → String
  | .mk i _ _ _ _ _ => i

def DependencyNode.itemName : DependencyNode → String
  | .mk _ n _ _ _ _ => n

def DependencyNode.itemNameFr : DependencyNode → Option String
  | .mk _ _ fr _ _ _ => fr

def DependencyNode.quantity : DependencyNode → Nat
  | .mk _ _ _ q _ _ => q

def DependencyNode.craftable : DependencyNode → Bool
  | .mk _ _ _ _ c _ => c

def DependencyNode.children : DependencyNode → List DependencyNode
  | .mk _ _ _ _ _ cs => cs

/-- The synthetic leaf produced in `build_dependency_tree` when an
ingredient does not resolve to a catalog row: the name is the one stored
on the ingredient itself, `name_fr` comes from a direct row lookup (which
yields `none` exactly when the recursive resolution failed, since both
read the same table), quantity is `ingredient.quantity * quantity`, and
the node is marked non-craftable with no children. -/
def syntheticLeaf (cat : Catalog) (ing : CIngredient) (quantity : Nat) : DependencyNode :=
  .mk ing.itemId ing.itemName ((getRecipe cat ing.itemId).map (·.nameFr) |>.join)
    (ing.quantity * quantity) false []

/-- Embedding of `build_dependency_tree` (recipe_service.py lines 100-155).
The Python recursion carries a per-path `visited` set, copied for each
child call; here the copy-on-branch behaviour falls out of passing the
extended list `itemId :: visited` to every child.  The extra `fuel`
argument bounds the recursion depth; `buildDependencyTree_stable` below
shows the result is independent of the fuel once the fuel exceeds the
number of catalog rows not yet on the path, which is the depth the
Python recursion can actually reach. -/
def buildDependencyTree (cat : Catalog) : Nat → String → Nat → List String → Option DependencyNode
  | 0, _, _, _ => none
  | fuel+1, itemId, quantity, visited =>
    match getRecipe cat itemId with
    | none => none
    | some recipe =>
      if itemId ∈ visited then
        some (.mk itemId recipe.name recipe.nameFr quantity (!recipe.variants.isEmpty) [])
      else
        let children :=
          match recipe.variants with
          | [] => []
          | v :: _ => v.ingredients.map (fun ing =>
              match buildDependencyTree cat fuel ing.itemId (ing.quantity * quantity)
                  (itemId :: visited) with
              | some child => child
              | none => syntheticLeaf cat ing quantity)
        some (.mk itemId recipe.name recipe.nameFr quantity (!recipe.variants.isEmpty) children)

/-- The exported entry point `build_dependency_tree(db, item_id, quantity)`
with its default `visited = set()`.  The fuel `cat.length + 1` strictly
exceeds the number of catalog rows, hence (by `buildDependencyTree_stable`)
acts as no bound at all. -/
def resolveDependencyTree (cat : Catalog) (itemId : String) (quantity : Nat) :
    Option DependencyNode :=
  buildDependencyTree cat (cat.length + 1) itemId quantity []

/-! ## Checkers for the tree invariants -/

/-- The multiplicative-propagation check at a single node: if the node has
children, its catalog recipe must exist, have a first variant, and the
children must match that variant position by position with
`child.quantity = ingredient.quantity * node.quantity`. -/
def nodeQuantitiesOk (cat : Catalog) (itemId : String) (quantity : Nat)
    (children : List DependencyNode) : Bool :=
  match children with
  | [] => true
  | cs =>
    match getRecipe cat itemId with
    | none => false
    | some recipe =>
      match recipe.variants with
      | [] => false
      | v :: _ =>
        cs.length == v.ingredients.length &&
        (cs.zip v.ingredients).all (fun p => p.1.quantity == p.2.quantity * quantity)

mutual
/-- Recursive multiplicative-propagation check over a whole tree. -/
def treeQuantitiesOk (cat : Catalog) : DependencyNode → Bool
  | .mk itemId _ _ quantity _ children =>
    nodeQuantitiesOk cat itemId quantity children && forestQuantitiesOk cat children

/-- List form of `treeQuantitiesOk`. -/
def forestQuantitiesOk (cat : Catalog) : List DependencyNode → Bool
  | [] => true
  | c :: cs => treeQuantitiesOk cat c && forestQuantitiesOk cat cs
end

/-! ## Fuel sufficiency: the recursion measure of build_dependency_tree -/

/-- Number of catalog rows whose id is not yet on the visited path.  Each
recursive call of `build_dependency_tree` strictly decreases this measure,
which is why the Python recursion terminates and why a fuel larger than it
never runs out. -/
def freshCount (cat : Catalog) (visited : List String) : Nat :=
  (cat.filter (fun r => decide (r.id ∉ visited))).length

lemma length_filter_le_of_imp {α : Type} (p q : α → Bool)
    (h : ∀ x, p x = true → q x = true) :
    ∀ l : List α, (l.filter p).length ≤ (l.filter q).length := by
  intro l
  induction l with
  | nil => simp
  | cons a t ih =>
    by_cases hp : p a = true
    · rw [List.filter_cons_of_pos hp, List.filter_cons_of_pos (h a hp)]
      simpa using ih
    · rw [List.filter_cons_of_neg (by simpa using hp)]
      by_cases hq : q a = true
      · rw [List.filter_cons_of_pos hq]
        exact Nat.le_succ_of_le ih
      · rw [List.filter_cons_of_neg (by simpa using hq)]
        exact ih

lemma freshCount_cons_le (cat : Catalog) (i : String) (vis : List String) :
    freshCount cat (i :: vis) ≤ freshCount cat vis := by
  refine length_filter_le_of_imp _ _ (fun r hr => ?_) cat
  simp only [decide_eq_true_eq, List.mem_cons] at hr ⊢
  tauto

lemma freshCount_cons_lt (cat : Catalog) (i : String) (vis : List String)
    (hmem : ∃ r ∈ cat, r.id = i) (hni : i ∉ vis) :
    freshCount cat (i :: vis) < freshCount cat vis := by
  obtain ⟨r, hr, hid⟩ := hmem
  induction cat with
  | nil => cases hr
  | cons a t ih =>
    unfold freshCount
    rw [List.filter_cons, List.filter_cons]
    rcases List.mem_cons.mp hr with rfl | hrt
    · rw [if_neg (by simp [hid]), if_pos (by simp [hid, hni])]
      have hle := freshCount_cons_le t i vis
      unfold freshCount at hle
      simpa [Nat.lt_succ_iff] using hle
    · have h2 := ih hrt
      unfold freshCount at h2
      by_cases ha : a.id ∉ (i :: vis)
      · have ha' : a.id ∉ vis := fun hx => ha (List.mem_cons_of_mem _ hx)
        rw [if_pos (by simpa using ha), if_pos (by simpa using ha')]
        simpa using Nat.succ_lt_succ h2
      · rw [if_neg (by simpa using ha)]
        by_cases ha' : a.id ∉ vis
        · rw [if_pos (by simpa using ha')]
          exact Nat.lt_succ_of_lt h2
        · rw [if_neg (by simpa using ha')]
          exact h2

lemma getRecipe_mem {cat : Catalog} {i : String} {r : CatRecipe}
    (h : getRecipe cat i = some r) : r ∈ cat ∧ r.id = i := by
  unfold getRecipe at h
  refine ⟨List.mem_of_find?_eq_some h, ?_⟩
  have := List.find?_some h
  simpa using this

/-- Fuel irrelevance for `buildDependencyTree`: any two fuels strictly above
the recursion measure give the same result.  This is the termination
argument of the Python recursion made explicit: the computation stabilises
and never actually consumes unbounded fuel. -/
lemma buildDependencyTree_stable :
    ∀ f₁ f₂ (cat : Catalog) (itemId : String) (q : Nat) (vis : List String),
    freshCount cat vis < f₁ → freshCount cat vis < f₂ →
    buildDependencyTree cat f₁ itemId q vis = buildDependencyTree cat f₂ itemId q vis := by
  intro f₁
  induction f₁ with
  | zero => intro f₂ cat i q vis h1; cases h1
  | succ f₁ ih =>
    intro f₂ cat i q vis h1 h2
    match f₂, h2 with
    | f₂+1, h2 =>
      simp only [buildDependencyTree]
      cases hrec : getRecipe cat i with
      | none => rfl
      | some recipe =>
        by_cases hv : i ∈ vis
        · simp [hv]
        · simp only [hv, if_false]
          cases hvars : recipe.variants with
          | nil => rfl
          | cons v rest =>
            have hlt : freshCount cat (i :: vis) < freshCount cat vis :=
              freshCount_cons_lt cat i vis
                ⟨_, (getRecipe_mem hrec).1, (getRecipe_mem hrec).2⟩ hv
            have hrw : ∀ ing : CIngredient,
                buildDependencyTree cat f₁ ing.itemId (ing.quantity * q) (i :: vis)
                  = buildDependencyTree cat f₂ ing.itemId (ing.quantity * q) (i :: vis) := by
              intro ing
              exact ih f₂ cat ing.itemId (ing.quantity * q) (i :: vis)
                (Nat.lt_of_lt_of_le hlt (Nat.lt_succ_iff.mp h1))
                (Nat.lt_of_lt_of_le hlt (Nat.lt_succ_iff.mp h2))
            simp only [hrw]

/-! ## Multiplicative propagation (claim C1) -/

lemma syntheticLeaf_quantitiesOk (cat : Catalog) (ing : CIngredient) (q : Nat) :
    treeQuantitiesOk cat (syntheticLeaf cat ing q) = true := by
  simp [syntheticLeaf, treeQuantitiesOk, forestQuantitiesOk, nodeQuantitiesOk]

lemma buildChildren_ok (cat : Catalog) (fuel : Nat) (q : Nat) (vis : List String)
    (hIH : ∀ itemId q t, buildDependencyTree cat fuel itemId q vis = some t →
      t.quantity = q ∧ treeQuantitiesOk cat t = true) :
    ∀ ings : List CIngredient,
      let cs := ings.map (fun ing =>
        match buildDependencyTree cat fuel ing.itemId (ing.quantity * q) vis with
        | some child => child
        | none => syntheticLeaf cat ing q)
      (∀ p ∈ cs.zip ings, p.1.quantity = p.2.quantity * q) ∧
        forestQuantitiesOk cat cs = true := by
  intro ings
  induction ings with
  | nil => simp [forestQuantitiesOk]
  | cons ing rest ih =>
    simp only [List.map_cons, List.zip_cons_cons, List.mem_cons, forestQuantitiesOk,
      Bool.and_eq_true]
    refine ⟨?_, ?_, ih.2⟩
    · rintro p (rfl | hp)
      · cases hb : buildDependencyTree cat fuel ing.itemId (ing.quantity * q) vis with
        | some child => simpa [hb] using (hIH _ _ _ hb).1
        | none => simp [hb, syntheticLeaf, DependencyNode.quantity]
      · exact ih.1 p hp
    · cases hb : buildDependencyTree cat fuel ing.itemId (ing.quantity * q) vis with
      | some child => simpa [hb] using (hIH _ _ _ hb).2
      | none => simp [hb, syntheticLeaf_quantitiesOk]

lemma nodeQuantitiesOk_of_zip (cat : Catalog) (i : String) (q : Nat) (recipe : CatRecipe)
    (hrec : getRecipe cat i = some recipe) (v : RVariant) (rest : List RVariant)
    (hvars : recipe.variants = v :: rest) (cs : List DependencyNode)
    (hlen : cs.length = v.ingredients.length)
    (hzip : ∀ p ∈ cs.zip v.ingredients, p.1.quantity = p.2.quantity * q) :
    nodeQuantitiesOk cat i q cs = true := by
  cases cs with
  | nil => simp [nodeQuantitiesOk]
  | cons c0 crest =>
    simp only [nodeQuantitiesOk, hrec, hvars, Bool.and_eq_true, beq_iff_eq,
      List.all_eq_true]
    exact ⟨hlen, fun p hp => by simpa [beq_iff_eq] using hzip p hp⟩

lemma build_quantities_ok :
    ∀ (fuel : Nat) (cat : Catalog) (itemId : String) (q : Nat) (vis : List String)
      (t : DependencyNode),
    buildDependencyTree cat fuel itemId q vis = some t →
    t.quantity = q ∧ treeQuantitiesOk cat t = true := by
  intro fuel
  induction fuel with
  | zero => intro cat i q vis t h; simp [buildDependencyTree] at h
  | succ fuel ih =>
    intro cat i q vis t h
    cases hrec : getRecipe cat i with
    | none => simp [buildDependencyTree, hrec] at h
    | some recipe =>
      simp only [buildDependencyTree, hrec] at h
      by_cases hv : i ∈ vis
      · rw [if_pos hv] at h
        cases h
        simp [DependencyNode.quantity, treeQuantitiesOk, forestQuantitiesOk, nodeQuantitiesOk]
      · rw [if_neg hv] at h
        cases hvars : recipe.variants with
        | nil =>
          simp only [hvars] at h
          cases h
          simp [DependencyNode.quantity, treeQuantitiesOk, forestQuantitiesOk,
            nodeQuantitiesOk]
        | cons v rest =>
          simp only [hvars] at h
          cases h
          have hch := buildChildren_ok cat fuel q (i :: vis)
            (fun itemId q t hb => ih cat itemId q (i :: vis) t hb) v.ingredients
          refine ⟨rfl, ?_⟩
          simp only [treeQuantitiesOk, Bool.and_eq_true]
          refine ⟨?_, hch.2⟩
          exact nodeQuantitiesOk_of_zip cat i q recipe hrec v rest hvars _
            (by simp) hch.1

/-! ## Concrete catalogs used as test vectors -/

/-- The worked example of the spec: two base resources, an intermediate
ingot and a sword. -/
def exCat : Catalog :=
  [ ⟨"iron_sword", "Iron Sword", none,
      [⟨[⟨"iron_ingot", "Iron Ingot", 3⟩, ⟨"wood_handle", "Wood Handle", 1⟩], none⟩]⟩,
    ⟨"iron_ingot", "Iron Ingot", none, [⟨[⟨"iron_ore", "Iron Ore", 2⟩], none⟩]⟩,
    ⟨"iron_ore", "Iron Ore", none, []⟩,
    ⟨"wood_handle", "Wood Handle", none, []⟩ ]

/-- The dependency tree of two iron swords in `exCat`. -/
def exTree : DependencyNode :=
  .mk "iron_sword" "Iron Sword" none 2 true
    [ .mk "iron_ingot" "Iron Ingot" none 6 true [.mk "iron_ore" "Iron Ore" none 12 false []],
      .mk "wood_handle" "Wood Handle" none 2 false [] ]

/-- A catalog whose single item is its own (transitive) ingredient. -/
def selfLoopCat : Catalog :=
  [⟨"A", "Item A", none, [⟨[⟨"A", "Item A", 1⟩], none⟩]⟩]

/-- A catalog in which the two branches below `root` each reach the
craftable item `s` independently. -/
def siblingCat : Catalog :=
  [ ⟨"root", "Root", none, [⟨[⟨"b", "B", 1⟩, ⟨"c", "C", 1⟩], none⟩]⟩,
    ⟨"b", "B", none, [⟨[⟨"s", "S", 1⟩], none⟩]⟩,
    ⟨"c", "C", none, [⟨[⟨"s", "S", 1⟩], none⟩]⟩,
    ⟨"s", "S", none, [⟨[⟨"t", "T", 1⟩], none⟩]⟩,
    ⟨"t", "T", none, []⟩ ]

/-! ## Claim C1 -/

/-- C1: for every catalog, item id and quantity for which resolution
succeeds, the returned tree has root quantity equal to the requested
quantity, and at every level each child quantity equals the ingredient
quantity of the first (selected) recipe variant of the parent multiplied
by the parent quantity. -/
theorem C1_multiplicative_propagation (cat : Catalog) (itemId : String) (q : Nat)
    (t : DependencyNode) (h : resolveDependencyTree cat itemId q = some t) :
    t.quantity = q ∧ treeQuantitiesOk cat t = true := by
  unfold resolveDependencyTree at h
  exact build_quantities_ok _ cat itemId q [] t h

/-- Witness for C1 at the worked iron-sword example of the spec. -/
theorem C1_multiplicative_propagation_witness :
    resolveDependencyTree exCat "iron_sword" 2 = some exTree ∧
    exTree.quantity = 2 ∧ treeQuantitiesOk exCat exTree = true :=
  ⟨rfl, C1_multiplicative_propagation exCat "iron_sword" 2 exTree rfl⟩

/-! ## Claim C2 -/

/-- C2 counterexample: in the self-loop catalog the cyclic child node is
produced with `craftable = true` (the catalog flag, since the item does
have a recipe variant), not with `craftable = false` as the claim states. -/
theorem C2_counterexample :
    resolveDependencyTree selfLoopCat "A" 1 =
      some (.mk "A" "Item A" none 1 true [.mk "A" "Item A" none 1 true []]) ∧
    ((resolveDependencyTree selfLoopCat "A" 1).map
      (fun t => t.children.map (·.craftable))) = some [true] :=
  ⟨rfl, rfl⟩

/-- C2 (amended): when the item id being resolved already occurs on the
current root-to-node path, `build_dependency_tree` returns immediately a
leaf node with the requested quantity and empty children, whose
`craftable` field is the catalog flag `len(recipe.variants) > 0` — it is
not forced to `false`. -/
theorem C2_cycle_returns_catalog_flag_leaf (cat : Catalog) (fuel : Nat) (itemId : String)
    (q : Nat) (vis : List String) (recipe : CatRecipe)
    (hrec : getRecipe cat itemId = some recipe) (hv : itemId ∈ vis) :
    buildDependencyTree cat (fuel+1) itemId q vis =
      some (.mk itemId recipe.name recipe.nameFr q (!recipe.variants.isEmpty) []) := by
  simp [buildDependencyTree, hrec, hv]

/-- Witness for the amended C2 on the self-loop catalog. -/
theorem C2_cycle_returns_catalog_flag_leaf_witness :
    buildDependencyTree selfLoopCat 1 "A" 5 ["A"] =
      some (.mk "A" "Item A" none 5 true []) :=
  C2_cycle_returns_catalog_flag_leaf selfLoopCat 0 "A" 5 ["A"]
    ⟨"A", "Item A", none, [⟨[⟨"A", "Item A", 1⟩], none⟩]⟩ rfl (by decide)

/-! ## Claim C3 -/

lemma freshCount_le_length (cat : Catalog) (vis : List String) :
    freshCount cat vis ≤ cat.length :=
  List.length_filter_le _ _

/-- C3: resolution terminates on every catalog, cyclic ones included: the
result is independent of the fuel bound once the fuel exceeds the finite
recursion measure (so the recursion stabilises instead of diverging), the
exported entry point already uses such a fuel, the cyclic occurrence is
rendered as a leaf, and two sibling branches both expand the same item
`s` independently (only repetition along a single root-to-node path is
cut, because the visited set is copied per recursive call). -/
theorem C3_termination_and_path_local_cycle_cut :
    (∀ (f₁ f₂ : Nat) (cat : Catalog) (itemId : String) (q : Nat) (vis : List String),
      freshCount cat vis < f₁ → freshCount cat vis < f₂ →
      buildDependencyTree cat f₁ itemId q vis = buildDependencyTree cat f₂ itemId q vis) ∧
    (∀ (cat : Catalog) (itemId : String) (q : Nat) (f : Nat), freshCount cat [] < f →
      resolveDependencyTree cat itemId q = buildDependencyTree cat f itemId q []) ∧
    ((resolveDependencyTree selfLoopCat "A" 1).map
      (fun t => t.children.map (·.children)) = some [[]]) ∧
    (resolveDependencyTree siblingCat "root" 1 = some (.mk "root" "Root" none 1 true
      [ .mk "b" "B" none 1 true [.mk "s" "S" none 1 true [.mk "t" "T" none 1 false []]],
        .mk "c" "C" none 1 true [.mk "s" "S" none 1 true [.mk "t" "T" none 1 false []]] ])) := by
  refine ⟨buildDependencyTree_stable, ?_, rfl, rfl⟩
  intro cat itemId q f hf
  exact buildDependencyTree_stable (cat.length + 1) f cat itemId q []
    (Nat.lt_succ_of_le (freshCount_le_length cat [])) hf

/-- Witness for C3: the fuel-stability component evaluated on the cyclic
catalog at two different fuels. -/
theorem C3_termination_witness :
    freshCount selfLoopCat [] < 2 ∧ freshCount selfLoopCat [] < 7 ∧
    buildDependencyTree selfLoopCat 2 "A" 1 [] = buildDependencyTree selfLoopCat 7 "A" 1 [] :=
  ⟨by decide, by decide,
    C3_termination_and_path_local_cycle_cut.1 2 7 selfLoopCat "A" 1 []
      (by decide) (by decide)⟩

/-! ## Claim C9 -/

lemma build_none_of_unknown (cat : Catalog) (fuel : Nat) (itemId : String) (q : Nat)
    (vis : List String) (h : getRecipe cat itemId = none) :
    buildDependencyTree cat fuel itemId q vis = none := by
  cases fuel with
  | zero => simp [buildDependencyTree]
  | succ fuel => simp [buildDependencyTree, h]

/-- C9: resolution returns `None` (surfaced as NotFound/404) exactly when
the root item id is unknown to the catalog; an unknown ingredient met
during the recursion instead yields a synthetic leaf built from the
ingredient record itself, with quantity `ingredient.quantity * parent
quantity`, `craftable = false` and no children, at the same child
position. -/
theorem C9_root_notfound_and_synthetic_leaves :
    (∀ (cat : Catalog) (itemId : String) (q : Nat),
      resolveDependencyTree cat itemId q = none ↔ getRecipe cat itemId = none) ∧
    (∀ (cat : Catalog) (fuel : Nat) (itemId : String) (q : Nat) (vis : List String)
      (recipe : CatRecipe) (v : RVariant) (rest : List RVariant) (j : Nat)
      (ing : CIngredient),
      getRecipe cat itemId = some recipe → itemId ∉ vis → recipe.variants = v :: rest →
      v.ingredients[j]? = some ing → getRecipe cat ing.itemId = none →
      ∃ n, buildDependencyTree cat (fuel+1) itemId q vis = some n ∧
        n.children[j]? = some (.mk ing.itemId ing.itemName none (ing.quantity * q) false [])) := by
  constructor
  · intro cat itemId q
    constructor
    · intro h
      cases hrec : getRecipe cat itemId with
      | none => rfl
      | some recipe => simp [resolveDependencyTree, buildDependencyTree, hrec] at h
    · intro h
      simp [resolveDependencyTree, buildDependencyTree, h]
  · intro cat fuel itemId q vis recipe v rest j ing hrec hv hvars hj hing
    refine ⟨DependencyNode.mk itemId recipe.name recipe.nameFr q (!recipe.variants.isEmpty)
        (v.ingredients.map (fun ing =>
          match buildDependencyTree cat fuel ing.itemId (ing.quantity * q) (itemId :: vis) with
          | some child => child
          | none => syntheticLeaf cat ing q)), ?_, ?_⟩
    · simp only [buildDependencyTree, hrec, if_neg hv, hvars]
    · simp only [DependencyNode.children, List.getElem?_map, hj, Option.map_some']
      rw [build_none_of_unknown cat fuel ing.itemId (ing.quantity * q) (itemId :: vis) hing]
      simp [syntheticLeaf, hing]

/-- Witness for C9 at a catalog whose only recipe references a missing
ingredient. -/
theorem C9_synthetic_leaf_witness :
    ∃ n, buildDependencyTree
        [⟨"W", "Widget", none, [⟨[⟨"missing", "Missing Thing", 4⟩], none⟩]⟩] 2 "W" 3 []
        = some n ∧
      n.children[0]? = some (.mk "missing" "Missing Thing" none 12 false []) :=
  C9_root_notfound_and_synthetic_leaves.2
    [⟨"W", "Widget", none, [⟨[⟨"missing", "Missing Thing", 4⟩], none⟩]⟩] 1 "W" 3 []
    ⟨"W", "Widget", none, [⟨[⟨"missing", "Missing Thing", 4⟩], none⟩]⟩
    ⟨[⟨"missing", "Missing Thing", 4⟩], none⟩ [] 0 ⟨"missing", "Missing Thing", 4⟩
    rfl (by decide) rfl rfl rfl

/-! ## Resource aggregation (calculate_total_resources, recipe_service.py 158-191) -/

/-- One accumulated resource entry.  The Python code keeps three
insertion-ordered dicts (`resources`, `resource_names`, `resource_names_fr`)
sharing the same keys; they are modelled as a single association list in
insertion order, names captured at first insertion. -/
structure ResAcc where
  itemId : String
  itemName : String
  itemNameFr : Option String
  total : Nat
deriving DecidableEq, Repr

/-- The `ResourceCalculation` schema returned to the caller. -/
structure ResourceCalculation where
  itemId : String
  itemName : String
  itemNameFr : Option String
  totalQuantity : Nat
  isBaseResource : Bool
deriving DecidableEq, Repr

/-- The dict updates performed for one leaf node: create the key with the
leaf names if absent, then add the leaf quantity to its running total. -/
def addLeafResource (acc : List ResAcc) (itemId itemName : String)
    (itemNameFr : Option String) (quantity : Nat) : List ResAcc :=
  if acc.any (fun e => e.itemId == itemId) then
    acc.map (fun e => if e.itemId == itemId then { e with total := e.total + quantity } else e)
  else
    acc ++ [⟨itemId, itemName, itemNameFr, quantity⟩]

mutual
/-- Embedding of the inner `collect_resources` walk: a node with no
children accumulates its quantity under its item id; a node with children
recurses into the children only. -/
def collectResources : DependencyNode → List ResAcc → List ResAcc
  | .mk itemId itemName itemNameFr quantity _ [], acc =>
      addLeafResource acc itemId itemName itemNameFr quantity
  | .mk _ _ _ _ _ (c :: cs), acc => collectResourcesList (c :: cs) acc

/-- Left-to-right walk of a child list by `collect_resources`. -/
def collectResourcesList : List DependencyNode → List ResAcc → List ResAcc
  | [], acc => acc
  | c :: cs, acc => collectResourcesList cs (collectResources c acc)
end

/-- Stable insertion (descending by running total) used to model the final
`sorted(resources.items(), key=lambda x: x[1], reverse=True)`: the new
element is placed after all strictly larger totals and before equal ones,
which is exactly what a stable descending sort does to an element that
precedes the rest. -/
def insertByTotalDesc (e : ResAcc) : List ResAcc → List ResAcc
  | [] => [e]
  | x :: xs => if e.total < x.total then x :: insertByTotalDesc e xs else e :: x :: xs

/-- Stable descending-by-total sort (extensionally the Python stable sort
with `reverse=True`). -/
def sortByTotalDesc : List ResAcc → List ResAcc
  | [] => []
  | x :: xs => insertByTotalDesc x (sortByTotalDesc xs)

/-- Embedding of `calculate_total_resources`: build the dependency tree,
collect leaf quantities, and return all entries sorted by total quantity
in descending order, flagged as base resources. -/
def calculateTotalResources (cat : Catalog) (itemId : String) (quantity : Nat) :
    List ResourceCalculation :=
  let acc := match resolveDependencyTree cat itemId quantity with
    | none => []
    | some tree => collectResources tree []
  (sortByTotalDesc acc).map (fun e => ⟨e.itemId, e.itemName, e.itemNameFr, e.total, true⟩)

mutual
/-- Specification reading of leaf aggregation: the sum of the quantities
of the leaves (nodes with no children) carrying a given item id, over the
whole tree.  An internal node contributes nothing itself. -/
def leafSum : DependencyNode → String → Nat
  | .mk i _ _ q _ [], id => if i = id then q else 0
  | .mk _ _ _ _ _ (c :: cs), id => leafSumList (c :: cs) id

/-- Sum of `leafSum` over a list of trees. -/
def leafSumList : List DependencyNode → String → Nat
  | [], _ => 0
  | c :: cs, id => leafSum c id + leafSumList cs id
end

/-- Total accumulated for an item id in an accumulator list. -/
def totalFor : List ResAcc → String → Nat
  | [], _ => 0
  | e :: rest, id => (if e.itemId = id then e.total else 0) + totalFor rest id

/-- Total reported for an item id in the final output list. -/
def totalQuantityFor : List ResourceCalculation → String → Nat
  | [], _ => 0
  | e :: rest, id => (if e.itemId = id then e.totalQuantity else 0) + totalQuantityFor rest id

/-! ## Lemmas about the resource accumulator -/

theorem depNode_strongInduction (P : DependencyNode → Prop)
    (h : ∀ i nm fr q cr cs, (∀ c ∈ cs, P c) → P (.mk i nm fr q cr cs)) : ∀ n, P n
  | .mk i nm fr q cr cs =>
    h i nm fr q cr cs (fun c hc => depNode_strongInduction P h c)
termination_by n => sizeOf n
decreasing_by
  simp only [DependencyNode.mk.sizeOf_spec]
  have := List.sizeOf_lt_of_mem hc
  omega

lemma totalFor_append (l₁ l₂ : List ResAcc) (id : String) :
    totalFor (l₁ ++ l₂) id = totalFor l₁ id + totalFor l₂ id := by
  induction l₁ with
  | nil => simp [totalFor]
  | cons e rest ih => simp [totalFor, ih, Nat.add_assoc]

lemma totalFor_update (i : String) (q : Nat) (id : String) :
    ∀ acc : List ResAcc, ((acc.map (·.itemId)).Nodup) →
    (∃ e ∈ acc, e.itemId = i) →
    totalFor (acc.map (fun e => if e.itemId == i then { e with total := e.total + q } else e)) id
      = totalFor acc id + (if i = id then q else 0) := by
  intro acc
  induction acc with
  | nil => rintro _ ⟨e, he, _⟩; cases he
  | cons a rest ih =>
    intro hnodup hex
    simp only [List.map_cons, List.nodup_cons] at hnodup
    by_cases ha : a.itemId = i
    · have hrest : rest.map
          (fun e => if e.itemId == i then { e with total := e.total + q } else e) = rest := by
        have hpt : ∀ e ∈ rest,
            (if e.itemId == i then { e with total := e.total + q } else e) = e := by
          intro e he
          rw [if_neg]
          simp only [beq_iff_eq]
          intro hei
          exact hnodup.1 (List.mem_map.mpr ⟨e, he, (hei.trans ha.symm)⟩)
        rw [List.map_congr_left hpt]
        simp
      simp only [List.map_cons, hrest, totalFor, ha, beq_self_eq_true, if_true]
      by_cases hid : i = id <;> simp [ha, hid] <;> omega
    · have hex' : ∃ e ∈ rest, e.itemId = i := by
        rcases hex with ⟨e, he, hei⟩
        rcases List.mem_cons.mp he with rfl | h2
        · exact absurd hei ha
        · exact ⟨e, h2, hei⟩
      have hbeq : (a.itemId == i) = false := beq_eq_false_iff_ne.mpr ha
      simp only [List.map_cons, totalFor, hbeq, Bool.false_eq_true, if_false]
      rw [ih hnodup.2 hex']
      omega

lemma totalFor_addLeafResource (acc : List ResAcc) (i nm : String) (fr : Option String)
    (q : Nat) (id : String) (h : (acc.map (·.itemId)).Nodup) :
    totalFor (addLeafResource acc i nm fr q) id
      = totalFor acc id + (if i = id then q else 0) := by
  unfold addLeafResource
  by_cases hany : (acc.any (fun e => e.itemId == i)) = true
  · rw [if_pos hany]
    refine totalFor_update i q id acc h ?_
    simpa [List.any_eq_true, beq_iff_eq] using hany
  · rw [if_neg hany, totalFor_append]
    simp [totalFor]

lemma addLeafResource_keys_nodup (acc : List ResAcc) (i nm : String) (fr : Option String)
    (q : Nat) (h : (acc.map (·.itemId)).Nodup) :
    ((addLeafResource acc i nm fr q).map (·.itemId)).Nodup := by
  unfold addLeafResource
  by_cases hany : (acc.any (fun e => e.itemId == i)) = true
  · rw [if_pos hany]
    have hkeys : (acc.map
        (fun e => if e.itemId == i then { e with total := e.total + q } else e)).map
          (·.itemId) = acc.map (·.itemId) := by
      rw [List.map_map]
      refine List.map_congr_left ?_
      intro e _
      by_cases he : e.itemId = i
      · simp [he]
      · simp [he]
    rw [hkeys]
    exact h
  · rw [if_neg hany, List.map_append]
    rw [List.nodup_append]
    refine ⟨h, List.nodup_singleton _, ?_⟩
    intro a ha hb
    simp only [List.map_cons, List.map_nil, List.mem_singleton] at hb
    subst hb
    simp only [List.any_eq_true, beq_iff_eq] at hany
    rcases List.mem_map.mp ha with ⟨e, he, hei⟩
    exact hany ⟨e, he, hei⟩

lemma collectResources_spec :
    ∀ n : DependencyNode, ∀ acc : List ResAcc, (acc.map (·.itemId)).Nodup →
      ((collectResources n acc).map (·.itemId)).Nodup ∧
      ∀ id, totalFor (collectResources n acc) id = totalFor acc id + leafSum n id := by
  have hlist : ∀ (cs : List DependencyNode),
      (∀ c ∈ cs, ∀ acc : List ResAcc, (acc.map (·.itemId)).Nodup →
        ((collectResources c acc).map (·.itemId)).Nodup ∧
        ∀ id, totalFor (collectResources c acc) id = totalFor acc id + leafSum c id) →
      ∀ acc : List ResAcc, (acc.map (·.itemId)).Nodup →
      ((collectResourcesList cs acc).map (·.itemId)).Nodup ∧
      ∀ id, totalFor (collectResourcesList cs acc) id
        = totalFor acc id + leafSumList cs id := by
    intro cs
    induction cs with
    | nil => intro _ acc hacc; simp [collectResourcesList, leafSumList, hacc]
    | cons c rest ih =>
      intro hcs acc hacc
      have hc := hcs c (List.mem_cons_self c rest) acc hacc
      have hrest := ih (fun c' hc' => hcs c' (List.mem_cons_of_mem c hc')) _ hc.1
      simp only [collectResourcesList, leafSumList]
      refine ⟨hrest.1, fun id => ?_⟩
      rw [hrest.2 id, hc.2 id]
      omega
  refine depNode_strongInduction _ ?_
  intro i nm fr q cr cs hIH
  cases cs with
  | nil =>
    intro acc hacc
    simp only [collectResources, leafSum]
    exact ⟨addLeafResource_keys_nodup acc i nm fr q hacc,
      fun id => totalFor_addLeafResource acc i nm fr q id hacc⟩
  | cons c rest =>
    intro acc hacc
    simp only [collectResources, leafSum]
    exact hlist (c :: rest) hIH acc hacc

/-! ## Lemmas about the descending sort -/

lemma insertByTotalDesc_perm (e : ResAcc) :
    ∀ l, (insertByTotalDesc e l).Perm (e :: l) := by
  intro l
  induction l with
  | nil => simp [insertByTotalDesc]
  | cons x xs ih =>
    by_cases h : e.total < x.total
    · simp only [insertByTotalDesc, if_pos h]
      exact (ih.cons x).trans (List.Perm.swap e x xs)
    · simp only [insertByTotalDesc, if_neg h]
      exact List.Perm.refl _

lemma sortByTotalDesc_perm : ∀ l : List ResAcc, (sortByTotalDesc l).Perm l := by
  intro l
  induction l with
  | nil => simp [sortByTotalDesc]
  | cons x xs ih =>
    exact (insertByTotalDesc_perm x (sortByTotalDesc xs)).trans (ih.cons x)

lemma totalFor_eq_sum (l : List ResAcc) (id : String) :
    totalFor l id = (l.map (fun e => if e.itemId = id then e.total else 0)).sum := by
  induction l with
  | nil => simp [totalFor]
  | cons e rest ih => simp [totalFor, ih]

lemma totalFor_perm {l₁ l₂ : List ResAcc} (h : l₁.Perm l₂) (id : String) :
    totalFor l₁ id = totalFor l₂ id := by
  rw [totalFor_eq_sum, totalFor_eq_sum]
  exact (h.map _).sum_eq

lemma sorted_insertByTotalDesc (e : ResAcc) :
    ∀ l, List.Sorted (fun a b => b.total ≤ a.total) l →
      List.Sorted (fun a b => b.total ≤ a.total) (insertByTotalDesc e l) := by
  intro l
  induction l with
  | nil => intro _; simp [insertByTotalDesc]
  | cons x xs ih =>
    intro hs
    rw [List.sorted_cons] at hs
    by_cases h : e.total < x.total
    · simp only [insertByTotalDesc, if_pos h]
      rw [List.sorted_cons]
      refine ⟨?_, ih hs.2⟩
      intro b hb
      rcases List.mem_cons.mp ((insertByTotalDesc_perm e xs).mem_iff.mp hb) with rfl | hbxs
      · omega
      · exact hs.1 b hbxs
    · simp only [insertByTotalDesc, if_neg h]
      rw [List.sorted_cons]
      refine ⟨?_, List.sorted_cons.mpr hs⟩
      intro b hb
      rcases List.mem_cons.mp hb with rfl | hbxs
      · omega
      · have := hs.1 b hbxs
        omega

lemma sorted_sortByTotalDesc :
    ∀ l, List.Sorted (fun a b => b.total ≤ a.total) (sortByTotalDesc l) := by
  intro l
  induction l with
  | nil => simp [sortByTotalDesc]
  | cons x xs ih => exact sorted_insertByTotalDesc x _ ih

lemma totalQuantityFor_map (l : List ResAcc) (id : String) :
    totalQuantityFor
      (l.map (fun e => (⟨e.itemId, e.itemName, e.itemNameFr, e.total, true⟩ :
        ResourceCalculation))) id = totalFor l id := by
  induction l with
  | nil => simp [totalQuantityFor, totalFor]
  | cons e rest ih => simp [totalQuantityFor, totalFor, ih]

/-! ## Claim C4 -/

/-- C4: the resource totals accumulate quantities only from leaf nodes
(keyed by item id, summed over every leaf occurrence anywhere in the
tree, so an internal node contributes nothing itself), each item id
appears at most once in the output, and the output is sorted by total
quantity in descending order. -/
theorem C4_leaf_only_totals_sorted_descending (cat : Catalog) (itemId : String) (q : Nat)
    (t : DependencyNode) (h : resolveDependencyTree cat itemId q = some t) :
    ((calculateTotalResources cat itemId q).map (·.itemId)).Nodup ∧
    (∀ id, totalQuantityFor (calculateTotalResources cat itemId q) id = leafSum t id) ∧
    List.Sorted (fun a b => b.totalQuantity ≤ a.totalQuantity)
      (calculateTotalResources cat itemId q) := by
  have hspec := collectResources_spec t [] (by simp)
  have hperm := sortByTotalDesc_perm (collectResources t [])
  unfold calculateTotalResources
  simp only [h]
  refine ⟨?_, ?_, ?_⟩
  · have hkeys : ((sortByTotalDesc (collectResources t [])).map
        (fun e => (⟨e.itemId, e.itemName, e.itemNameFr, e.total, true⟩ :
          ResourceCalculation))).map (·.itemId)
        = (sortByTotalDesc (collectResources t [])).map (·.itemId) := by
      rw [List.map_map]
      exact List.map_congr_left (fun e _ => rfl)
    rw [hkeys]
    exact ((hperm.map (·.itemId)).nodup_iff).mpr hspec.1
  · intro id
    rw [totalQuantityFor_map, totalFor_perm hperm id, hspec.2 id]
    simp [totalFor]
  · rw [List.Sorted, List.pairwise_map]
    exact (sorted_sortByTotalDesc (collectResources t []))

/-- Witness for C4 at the worked iron-sword example: the output is the
sorted pair iron_ore 12, wood_handle 2, exactly as the spec example
states. -/
theorem C4_leaf_only_totals_witness :
    resolveDependencyTree exCat "iron_sword" 2 = some exTree ∧
    calculateTotalResources exCat "iron_sword" 2 =
      [ ⟨"iron_ore", "Iron Ore", none, 12, true⟩,
        ⟨"wood_handle", "Wood Handle", none, 2, true⟩ ] ∧
    totalQuantityFor (calculateTotalResources exCat "iron_sword" 2) "iron_ore"
      = leafSum exTree "iron_ore" ∧
    List.Sorted (fun a b => b.totalQuantity ≤ a.totalQuantity)
      (calculateTotalResources exCat "iron_sword" 2) :=
  ⟨rfl, rfl,
    (C4_leaf_only_totals_sorted_descending exCat "iron_sword" 2 exTree rfl).2.1 "iron_ore",
    (C4_leaf_only_totals_sorted_descending exCat "iron_sword" 2 exTree rfl).2.2⟩

/-! ## Upgrade tree resolution (_get_full_upgrade_tree, items.py 162-235)

The function loads the whole `ItemUpgrade` edge set, builds adjacency
maps, climbs parent pointers to a root with a visited-set cycle guard,
collects the reachable ids breadth-first, batch-loads their item rows,
and finally builds the tree recursively with `build_node`.  The
adjacency dicts are modelled directly on the edge list: the list-valued
`children_map` appends outputs in edge order, and `parents_map`, being a
plain dict written in edge order, keeps the last edge for a repeated
output. -/

/-- An `ItemUpgrade` row: `source_item_row_id → output_item_row_id`. -/
structure UpgradeEdge where
  sourceItemRowId : String
  outputItemRowId : String
deriving DecidableEq, Repr

/-- The slice of an `Item` row that upgrade/cooking resolution reads. -/
structure ItemRow where
  rowId : String
  name : String
  iconPath : Option String
deriving DecidableEq, Repr

/-- The `children_map` adjacency list: outputs of all edges with the given
source, in edge order. -/
def childrenOf (edges : List UpgradeEdge) (x : String) : List String :=
  (edges.filter (fun e => e.sourceItemRowId == x)).map (·.outputItemRowId)

/-- The `parents_map` entry: writing `parents_map[output] = source` for
every edge in order keeps the source of the last edge with the given
output. -/
def parentOf (edges : List UpgradeEdge) (x : String) : Option String :=
  ((edges.filter (fun e => e.outputItemRowId == x)).map (·.sourceItemRowId)).getLast?

/-- The root-finding while loop (items.py 187-198): follow `parents_map`
upward, stopping when no parent exists or the parent was already visited
(cycle); the fuel models the unbounded loop and
`findUpgradeRootAux_stable` shows any fuel above the finite measure gives
the same answer. -/
def findUpgradeRootAux (edges : List UpgradeEdge) : Nat → String → List String → String
  | 0, current, _ => current
  | fuel+1, current, visited =>
    match parentOf edges current with
    | none => current
    | some parent =>
      if parent ∈ visited then current
      else findUpgradeRootAux edges fuel parent (parent :: visited)

/-- Root finding from `row_id` with `visited = {row_id}`. -/
def findUpgradeRoot (edges : List UpgradeEdge) (rowId : String) : String :=
  findUpgradeRootAux edges (edges.length + 1) rowId [rowId]

/-- The breadth-first collection of all ids reachable from the root via
`children_map` (items.py 205-213): ids are added to the set when popped,
children are enqueued when not yet in the set.  The fuel bounds the
number of loop iterations; no theorem below depends on the exact bound,
and on every concrete catalog used here it is ample. -/
def bfsCollect (edges : List UpgradeEdge) : Nat → List String → List String → List String
  | 0, _, acc => acc
  | fuel+1, queue, acc =>
    match queue with
    | [] => acc
    | current :: rest =>
      let acc' := if current ∈ acc then acc else acc ++ [current]
      bfsCollect edges fuel
        (rest ++ (childrenOf edges current).filter (fun c => decide (c ∉ acc'))) acc'

/-- Item lookup by `row_id`. -/
def lookupItemRow (items : List ItemRow) (rowId : String) : Option ItemRow :=
  items.find? (fun i => i.rowId == rowId)

/-- The `UpgradeTreeNode` response schema. -/
inductive UpgradeTreeNode where
  | mk (rowId : String) (name : Option String) (iconPath : Option String)
       (children : List UpgradeTreeNode)
deriving Repr

def UpgradeTreeNode.rowId : UpgradeTreeNode → String
  | .mk r _ _ _ => r

def UpgradeTreeNode.children : UpgradeTreeNode → List UpgradeTreeNode
  | .mk _ _ _ cs => cs

/-- Sequencing of optional results: `some` of the value list when every
entry is `some`, otherwise `none`. -/
def seqOption {α : Type} : List (Option α) → Option (List α)
  | [] => some []
  | none :: _ => none
  | some x :: rest => (seqOption rest).map (x :: ·)

/-- Embedding of `build_node` (items.py 221-233).  The Python recursion
follows `children_map` with no cycle guard and no depth bound; `none`
here means the fuel ran out, and a result that is `none` for every fuel
is a recursion that never returns (`RecursionError` in the original).
The item info lookup goes through the BFS-collected id set, because the
batch query restricts to `tree_item_ids`. -/
def buildUpgradeNode (edges : List UpgradeEdge) (items : List ItemRow)
    (treeIds : List String) : Nat → String → Option UpgradeTreeNode
  | 0, _ => none
  | fuel+1, itemRowId =>
    match seqOption ((childrenOf edges itemRowId).map
        (fun c => buildUpgradeNode edges items treeIds fuel c)) with
    | none => none
    | some children =>
      let item := if itemRowId ∈ treeIds then lookupItemRow items itemRowId else none
      some (.mk itemRowId (item.map (·.name)) (item.map (·.iconPath) |>.join) children)

/-- Embedding of `_get_full_upgrade_tree`.  The outer `Option` layer is
the fuel/divergence marker of `build_node` (`none` = the recursion never
returns); the inner one is the `None`/tree result of the Python function.
The two nested participation checks of items.py 200-203 collapse to one
conjunction: when the root check fails but the `row_id` check passes the
original falls through to the build, exactly as here. -/
def upgradeTreeResult (items : List ItemRow) (edges : List UpgradeEdge) (rowId : String) :
    Option (Option UpgradeTreeNode) :=
  if edges.isEmpty then some none
  else
    let rootId := findUpgradeRoot edges rowId
    if ((childrenOf edges rootId).isEmpty && (parentOf edges rootId).isNone)
        && ((childrenOf edges rowId).isEmpty && (parentOf edges rowId).isNone) then
      some none
    else
      let treeIds := bfsCollect edges (2 ^ (edges.length + 1)) [rootId] []
      match buildUpgradeNode edges items treeIds (edges.length + 1) rootId with
      | none => none
      | some t => some (some t)

/-- Iterated parent pointer: the n-th ancestor under `parents_map`, or
`none` when the chain has already ended. -/
def parentIter (edges : List UpgradeEdge) : Nat → String → Option String
  | 0, x => some x
  | n+1, x =>
    match parentOf edges x with
    | none => none
    | some p => parentIter edges n p

/-- Pure parent climb without the visited guard. -/
def climbParents (edges : List UpgradeEdge) : Nat → String → String
  | 0, x => x
  | n+1, x =>
    match parentOf edges x with
    | none => x
    | some p => climbParents edges n p

/-- Undirected connectivity through the upgrade edge set. -/
inductive UpgradeConnected (edges : List UpgradeEdge) : String → String → Prop
  | refl (x : String) : UpgradeConnected edges x x
  | fwd {x y z : String} : (⟨x, y⟩ : UpgradeEdge) ∈ edges →
      UpgradeConnected edges y z → UpgradeConnected edges x z
  | bwd {x y z : String} : (⟨x, y⟩ : UpgradeEdge) ∈ edges →
      UpgradeConnected edges x z → UpgradeConnected edges y z

/-! ## Termination of the root-finding loop -/

/-- Number of edge sources not yet visited: the measure of the
root-finding while loop, which adds one unvisited source per iteration. -/
def parentFresh (edges : List UpgradeEdge) (visited : List String) : Nat :=
  (edges.filter (fun e => decide (e.sourceItemRowId ∉ visited))).length

lemma parentFresh_cons_le (edges : List UpgradeEdge) (p : String) (vis : List String) :
    parentFresh edges (p :: vis) ≤ parentFresh edges vis := by
  refine length_filter_le_of_imp _ _ (fun e he => ?_) edges
  simp only [decide_eq_true_eq, List.mem_cons] at he ⊢
  tauto

lemma parentFresh_cons_lt (edges : List UpgradeEdge) (p : String) (vis : List String)
    (hmem : ∃ e ∈ edges, e.sourceItemRowId = p) (hni : p ∉ vis) :
    parentFresh edges (p :: vis) < parentFresh edges vis := by
  obtain ⟨e, he, hid⟩ := hmem
  induction edges with
  | nil => cases he
  | cons a t ih =>
    unfold parentFresh
    rw [List.filter_cons, List.filter_cons]
    rcases List.mem_cons.mp he with rfl | hrt
    · rw [if_neg (by simp [hid]), if_pos (by simp [hid, hni])]
      have hle := parentFresh_cons_le t p vis
      unfold parentFresh at hle
      simpa [Nat.lt_succ_iff] using hle
    · have h2 := ih hrt
      unfold parentFresh at h2
      by_cases ha : a.sourceItemRowId ∉ (p :: vis)
      · have ha' : a.sourceItemRowId ∉ vis := fun hx => ha (List.mem_cons_of_mem _ hx)
        rw [if_pos (by simpa using ha), if_pos (by simpa using ha')]
        simpa using Nat.succ_lt_succ h2
      · rw [if_neg (by simpa using ha)]
        by_cases ha' : a.sourceItemRowId ∉ vis
        · rw [if_pos (by simpa using ha')]
          exact Nat.lt_succ_of_lt h2
        · rw [if_neg (by simpa using ha')]
          exact h2

lemma parentOf_source_mem {edges : List UpgradeEdge} {x p : String}
    (h : parentOf edges x = some p) : ∃ e ∈ edges, e.sourceItemRowId = p := by
  unfold parentOf at h
  have hp := List.mem_of_mem_getLast? h
  rcases List.mem_map.mp hp with ⟨e, hef, hes⟩
  exact ⟨e, List.mem_of_mem_filter hef, hes⟩

/-- Fuel irrelevance for the root-finding loop: any two fuels strictly
above the measure give the same root, which is the termination argument
of the Python while loop. -/
lemma findUpgradeRootAux_stable :
    ∀ (f₁ f₂ : Nat) (edges : List UpgradeEdge) (x : String) (vis : List String),
    parentFresh edges vis < f₁ → parentFresh edges vis < f₂ →
    findUpgradeRootAux edges f₁ x vis = findUpgradeRootAux edges f₂ x vis := by
  intro f₁
  induction f₁ with
  | zero => intro f₂ edges x vis h1; cases h1
  | succ f₁ ih =>
    intro f₂ edges x vis h1 h2
    match f₂, h2 with
    | f₂+1, h2 =>
      simp only [findUpgradeRootAux]
      cases hp : parentOf edges x with
      | none => rfl
      | some p =>
        by_cases hv : p ∈ vis
        · simp [hv]
        · simp only [hv, if_false]
          have hlt : parentFresh edges (p :: vis) < parentFresh edges vis :=
            parentFresh_cons_lt edges p vis (parentOf_source_mem hp) hv
          exact ih f₂ edges p (p :: vis)
            (Nat.lt_of_lt_of_le hlt (Nat.lt_succ_iff.mp h1))
            (Nat.lt_of_lt_of_le hlt (Nat.lt_succ_iff.mp h2))

/-! ## The iterated parent chain -/

lemma parentIter_none_step (edges : List UpgradeEdge) :
    ∀ (n : Nat) (x : String), parentIter edges n x = none →
      parentIter edges (n+1) x = none := by
  intro n
  induction n with
  | zero => intro x h; simp [parentIter] at h
  | succ n ih =>
    intro x h
    cases hp : parentOf edges x with
    | none => simp [parentIter, hp]
    | some p =>
      have hn : parentIter edges n p = none := by simpa [parentIter, hp] using h
      simpa [parentIter, hp] using ih p hn

lemma parentIter_none_le (edges : List UpgradeEdge) {n m : Nat} (hnm : n ≤ m)
    {x : String} (h : parentIter edges n x = none) : parentIter edges m x = none := by
  induction m with
  | zero => exact (Nat.le_zero.mp hnm) ▸ h
  | succ m ih =>
    rcases Nat.lt_or_ge n (m+1) with hlt | hge
    · exact parentIter_none_step edges m x (ih (Nat.lt_succ_iff.mp hlt))
    · exact (Nat.le_antisymm hnm hge) ▸ h

lemma parentIter_add (edges : List UpgradeEdge) :
    ∀ (i : Nat) (x a : String), parentIter edges i x = some a →
      ∀ j, parentIter edges (i + j) x = parentIter edges j a := by
  intro i
  induction i with
  | zero =>
    intro x a h j
    have hx : x = a := by simpa [parentIter] using h
    rw [Nat.zero_add, hx]
  | succ i ih =>
    intro x a h j
    cases hp : parentOf edges x with
    | none => simp [parentIter, hp] at h
    | some p =>
      have hi : parentIter edges i p = some a := by simpa [parentIter, hp] using h
      have harith : i + 1 + j = (i + j) + 1 := by omega
      rw [harith]
      simpa [parentIter, hp] using ih p a hi j

lemma parentIter_inj_aux {edges : List UpgradeEdge} {N : Nat} {x : String}
    (hnone : parentIter edges N x = none) {i j : Nat} {a : String} (hij : i < j)
    (hi : parentIter edges i x = some a) (hj : parentIter edges j x = some a) :
    False := by
  have hex : ∃ n, parentIter edges n x = none := ⟨N, hnone⟩
  have h₀ : parentIter edges (Nat.find hex) x = none := Nat.find_spec hex
  have hjlt : j < Nat.find hex := by
    by_contra hle
    push_neg at hle
    rw [parentIter_none_le edges hle h₀] at hj
    cases hj
  have hta : parentIter edges (Nat.find hex - j) a = none := by
    have hadd := parentIter_add edges j x a hj (Nat.find hex - j)
    rw [Nat.add_sub_cancel' (Nat.le_of_lt hjlt)] at hadd
    rw [← hadd]
    exact h₀
  have hcontr : parentIter edges (i + (Nat.find hex - j)) x = none := by
    rw [parentIter_add edges i x a hi (Nat.find hex - j)]
    exact hta
  exact Nat.find_min hex (by omega) hcontr

lemma parentIter_inj {edges : List UpgradeEdge} {N : Nat} {x : String}
    (hnone : parentIter edges N x = none) {i j : Nat} {a : String}
    (hi : parentIter edges i x = some a) (hj : parentIter edges j x = some a) :
    i = j := by
  rcases Nat.lt_trichotomy i j with h | h | h
  · exact absurd (parentIter_inj_aux hnone h hi hj) (fun f => f)
  · exact h
  · exact absurd (parentIter_inj_aux hnone h hj hi) (fun f => f)

lemma findUpgradeRootAux_eq_climb (edges : List UpgradeEdge) :
    ∀ (fuel : Nat) (x : String) (vis : List String),
    parentIter edges fuel x = none →
    (∀ k a, 0 < k → parentIter edges k x = some a → a ∉ vis) →
    findUpgradeRootAux edges fuel x vis = climbParents edges fuel x := by
  intro fuel
  induction fuel with
  | zero => intro x vis h _; simp [parentIter] at h
  | succ fuel ih =>
    intro x vis hnone hvis
    cases hp : parentOf edges x with
    | none => simp [findUpgradeRootAux, climbParents, hp]
    | some p =>
      have hp1 : parentIter edges 1 x = some p := by simp [parentIter, hp]
      have hpv : p ∉ vis := hvis 1 p (by omega) hp1
      have hnone' : parentIter edges fuel p = none := by
        simpa [parentIter, hp] using hnone
      simp only [findUpgradeRootAux, climbParents, hp]
      rw [if_neg hpv]
      refine ih p (p :: vis) hnone' ?_
      intro k a hk hka
      have hx : parentIter edges (k+1) x = some a := by simpa [parentIter, hp] using hka
      intro hmem
      rcases List.mem_cons.mp hmem with rfl | hmem'
      · exact absurd (parentIter_inj hnone hx hp1) (by omega)
      · exact hvis (k+1) a (by omega) hx hmem'

lemma climbParents_congr (edges : List UpgradeEdge) :
    ∀ (f₁ f₂ : Nat) (x : String), parentIter edges f₁ x = none →
      parentIter edges f₂ x = none →
      climbParents edges f₁ x = climbParents edges f₂ x := by
  intro f₁
  induction f₁ with
  | zero => intro f₂ x h; simp [parentIter] at h
  | succ f₁ ih =>
    intro f₂ x h1 h2
    cases f₂ with
    | zero => simp [parentIter] at h2
    | succ f₂ =>
      cases hp : parentOf edges x with
      | none => simp [climbParents, hp]
      | some p =>
        simp only [climbParents, hp]
        exact ih f₂ p (by simpa [parentIter, hp] using h1)
          (by simpa [parentIter, hp] using h2)

lemma filter_output_eq_single {edges : List UpgradeEdge}
    (H1 : (edges.map (·.outputItemRowId)).Nodup) {e : UpgradeEdge} (he : e ∈ edges) :
    edges.filter (fun e2 => e2.outputItemRowId == e.outputItemRowId) = [e] := by
  induction edges with
  | nil => cases he
  | cons a rest ih =>
    simp only [List.map_cons, List.nodup_cons] at H1
    rcases List.mem_cons.mp he with rfl | hrest
    · rw [List.filter_cons_of_pos (by simp)]
      have hrest0 : rest.filter (fun e2 => e2.outputItemRowId == e.outputItemRowId) = [] := by
        rw [List.filter_eq_nil_iff]
        intro e2 he2
        simp only [beq_iff_eq]
        intro heq
        exact H1.1 (List.mem_map.mpr ⟨e2, he2, heq⟩)
      rw [hrest0]
    · rw [List.filter_cons_of_neg ?_, ih H1.2 hrest]
      simp only [beq_iff_eq]
      intro heq
      exact H1.1 (List.mem_map.mpr ⟨e, hrest, heq.symm⟩)

lemma parentOf_of_mem {edges : List UpgradeEdge}
    (H1 : (edges.map (·.outputItemRowId)).Nodup) {e : UpgradeEdge} (he : e ∈ edges) :
    parentOf edges e.outputItemRowId = some e.sourceItemRowId := by
  unfold parentOf
  rw [filter_output_eq_single H1 he]
  rfl

lemma findUpgradeRoot_edge (edges : List UpgradeEdge)
    (H1 : (edges.map (·.outputItemRowId)).Nodup)
    (H2 : ∀ v ∈ edges.map (·.sourceItemRowId) ++ edges.map (·.outputItemRowId),
      parentIter edges (edges.length + 1) v = none)
    {e : UpgradeEdge} (he : e ∈ edges) :
    findUpgradeRoot edges e.sourceItemRowId = findUpgradeRoot edges e.outputItemRowId := by
  have hu2 : parentIter edges (edges.length + 1) e.sourceItemRowId = none :=
    H2 _ (List.mem_append_left _ (List.mem_map.mpr ⟨e, he, rfl⟩))
  have hv2 : parentIter edges (edges.length + 1) e.outputItemRowId = none :=
    H2 _ (List.mem_append_right _ (List.mem_map.mpr ⟨e, he, rfl⟩))
  have hpv : parentOf edges e.outputItemRowId = some e.sourceItemRowId :=
    parentOf_of_mem H1 he
  have huE : parentIter edges edges.length e.sourceItemRowId = none := by
    simpa [parentIter, hpv] using hv2
  have hne : e.sourceItemRowId ≠ e.outputItemRowId := by
    intro huv
    have h1v : parentIter edges 1 e.outputItemRowId = some e.sourceItemRowId := by
      simp [parentIter, hpv]
    rw [huv] at h1v
    have h0v : parentIter edges 0 e.outputItemRowId = some e.outputItemRowId := rfl
    exact absurd (parentIter_inj hv2 h1v h0v) (by omega)
  have hL : findUpgradeRoot edges e.sourceItemRowId
      = climbParents edges (edges.length + 1) e.sourceItemRowId := by
    refine findUpgradeRootAux_eq_climb edges (edges.length + 1) _ _ hu2 ?_
    intro k a hk hka
    intro hmem
    rcases List.mem_cons.mp hmem with rfl | hmem'
    · have h0 : parentIter edges 0 e.sourceItemRowId = some e.sourceItemRowId := rfl
      exact absurd (parentIter_inj hu2 hka h0) (by omega)
    · cases hmem'
  have hR : findUpgradeRoot edges e.outputItemRowId
      = climbParents edges edges.length e.sourceItemRowId := by
    show findUpgradeRootAux edges (edges.length + 1) e.outputItemRowId [e.outputItemRowId] = _
    simp only [findUpgradeRootAux, hpv]
    rw [if_neg (by simpa using hne)]
    refine findUpgradeRootAux_eq_climb edges edges.length _ _ huE ?_
    intro k a hk hka
    intro hmem
    rcases List.mem_cons.mp hmem with rfl | hmem'
    · have h0 : parentIter edges 0 e.sourceItemRowId = some e.sourceItemRowId := rfl
      exact absurd (parentIter_inj huE hka h0) (by omega)
    · rcases List.mem_cons.mp hmem' with rfl | hmem''
      · have hx : parentIter edges (k+1) e.outputItemRowId = some e.outputItemRowId := by
          simpa [parentIter, hpv] using hka
        have h0 : parentIter edges 0 e.outputItemRowId = some e.outputItemRowId := rfl
        exact absurd (parentIter_inj hv2 hx h0) (by omega)
      · cases hmem''
  rw [hL, hR]
  exact climbParents_congr edges (edges.length + 1) edges.length _ hu2 huE

lemma findUpgradeRoot_connected (edges : List UpgradeEdge)
    (H1 : (edges.map (·.outputItemRowId)).Nodup)
    (H2 : ∀ v ∈ edges.map (·.sourceItemRowId) ++ edges.map (·.outputItemRowId),
      parentIter edges (edges.length + 1) v = none) :
    ∀ {x y : String}, UpgradeConnected edges x y →
      findUpgradeRoot edges x = findUpgradeRoot edges y := by
  intro x y hconn
  induction hconn with
  | refl x => rfl
  | fwd hxy _ ih => exact (findUpgradeRoot_edge edges H1 H2 hxy).trans ih
  | bwd hxy _ ih => exact (findUpgradeRoot_edge edges H1 H2 hxy).symm.trans ih

lemma childrenOf_ne_nil_of_mem {edges : List UpgradeEdge} {e : UpgradeEdge}
    (he : e ∈ edges) : childrenOf edges e.sourceItemRowId ≠ [] := by
  unfold childrenOf
  simp only [ne_eq, List.map_eq_nil_iff, List.filter_eq_nil_iff]
  intro hall
  have hcontr := hall e he
  simp at hcontr

lemma parentOf_ne_none_of_mem {edges : List UpgradeEdge} {e : UpgradeEdge}
    (he : e ∈ edges) : parentOf edges e.outputItemRowId ≠ none := by
  unfold parentOf
  intro hnone
  rw [← Option.not_isSome_iff_eq_none, List.getLast?_isSome] at hnone
  refine hnone ?_
  simp only [ne_eq, List.map_eq_nil_iff, List.filter_eq_nil_iff]
  intro hall
  have hcontr := hall e he
  simp at hcontr

lemma connected_cases (edges : List UpgradeEdge) :
    ∀ {x y : String}, UpgradeConnected edges x y →
      x = y ∨ ((childrenOf edges x ≠ [] ∨ parentOf edges x ≠ none) ∧
               (childrenOf edges y ≠ [] ∨ parentOf edges y ≠ none)) := by
  intro x y hconn
  induction hconn with
  | refl x => exact Or.inl rfl
  | @fwd x y z hxy _ ih =>
    refine Or.inr ⟨Or.inl (childrenOf_ne_nil_of_mem hxy), ?_⟩
    rcases ih with rfl | ⟨_, hz⟩
    · exact Or.inr (parentOf_ne_none_of_mem hxy)
    · exact hz
  | @bwd x y z hxy _ ih =>
    refine Or.inr ⟨Or.inr (parentOf_ne_none_of_mem hxy), ?_⟩
    rcases ih with rfl | ⟨_, hz⟩
    · exact Or.inl (childrenOf_ne_nil_of_mem hxy)
    · exact hz

lemma participation_false {edges : List UpgradeEdge} {x : String}
    (h : childrenOf edges x ≠ [] ∨ parentOf edges x ≠ none) :
    ((childrenOf edges x).isEmpty && (parentOf edges x).isNone) = false := by
  rcases h with h | h
  · rw [Bool.and_eq_false_iff]
    exact Or.inl (List.isEmpty_eq_false.mpr h)
  · rw [Bool.and_eq_false_iff]
    refine Or.inr ?_
    rw [← Bool.not_eq_true, Option.isNone_iff_eq_none]
    exact h

/-! ## Claim C6 -/

/-- C6 counterexample: with two edges upgrading different sources into the
same output, the connected items A and C produce different upgrade trees
(root A versus root B), because `parents_map` keeps only the last-seen
parent of the shared output. -/
theorem C6_counterexample :
    UpgradeConnected [⟨"A", "C"⟩, ⟨"B", "C"⟩] "A" "C" ∧
    upgradeTreeResult [] [⟨"A", "C"⟩, ⟨"B", "C"⟩] "A"
      ≠ upgradeTreeResult [] [⟨"A", "C"⟩, ⟨"B", "C"⟩] "C" :=
  ⟨UpgradeConnected.fwd (List.mem_cons_self _ _) (UpgradeConnected.refl "C"),
    fun h => absurd (congrArg (Option.map (Option.map UpgradeTreeNode.rowId)) h)
      (by decide)⟩

/-- C6 (amended): provided no item is the output of two different edges
and every parent chain dies out within `|edges| + 1` steps (acyclicity),
any two items in the same connected upgrade component resolve to the same
root and `_get_full_upgrade_tree` returns the identical result for
them. -/
theorem C6_same_component_same_tree (items : List ItemRow) (edges : List UpgradeEdge)
    (x y : String) (H1 : (edges.map (·.outputItemRowId)).Nodup)
    (H2 : ∀ v ∈ edges.map (·.sourceItemRowId) ++ edges.map (·.outputItemRowId),
      parentIter edges (edges.length + 1) v = none)
    (hconn : UpgradeConnected edges x y) :
    findUpgradeRoot edges x = findUpgradeRoot edges y ∧
    upgradeTreeResult items edges x = upgradeTreeResult items edges y := by
  have hroot := findUpgradeRoot_connected edges H1 H2 hconn
  refine ⟨hroot, ?_⟩
  unfold upgradeTreeResult
  rw [hroot]
  rcases connected_cases edges hconn with rfl | ⟨hx, hy⟩
  · rfl
  · rw [participation_false hx, participation_false hy]

/-- Witness for the amended C6 on the chain A upgrades to B upgrades to C. -/
theorem C6_same_component_same_tree_witness :
    findUpgradeRoot [⟨"A", "B"⟩, ⟨"B", "C"⟩] "A"
        = findUpgradeRoot [⟨"A", "B"⟩, ⟨"B", "C"⟩] "C" ∧
    upgradeTreeResult [] [⟨"A", "B"⟩, ⟨"B", "C"⟩] "A"
        = upgradeTreeResult [] [⟨"A", "B"⟩, ⟨"B", "C"⟩] "C" :=
  C6_same_component_same_tree [] [⟨"A", "B"⟩, ⟨"B", "C"⟩] "A" "C"
    (by decide) (by decide)
    (UpgradeConnected.fwd (List.mem_cons_self _ _)
      (UpgradeConnected.fwd (by decide) (UpgradeConnected.refl "C")))

/-! ## Claim C7 -/

lemma cyc_buildNode_none :
    ∀ (n : Nat) (items : List ItemRow) (treeIds : List String),
      buildUpgradeNode [⟨"A", "B"⟩, ⟨"B", "A"⟩] items treeIds n "A" = none ∧
      buildUpgradeNode [⟨"A", "B"⟩, ⟨"B", "A"⟩] items treeIds n "B" = none := by
  intro n
  induction n with
  | zero => intro items treeIds; exact ⟨rfl, rfl⟩
  | succ n ih =>
    intro items treeIds
    have hchA : childrenOf [(⟨"A", "B"⟩ : UpgradeEdge), ⟨"B", "A"⟩] "A" = ["B"] := rfl
    have hchB : childrenOf [(⟨"A", "B"⟩ : UpgradeEdge), ⟨"B", "A"⟩] "B" = ["A"] := rfl
    constructor
    · simp only [buildUpgradeNode, hchA, List.map_cons, List.map_nil,
        (ih items treeIds).2, seqOption]
    · simp only [buildUpgradeNode, hchB, List.map_cons, List.map_nil,
        (ih items treeIds).1, seqOption]

/-- A walk along `children_map` edges: `ChildWalkEnd edges x w e` states
that starting at `x` and stepping to a child at every step, the visited
ids are `w` in order and the walk ends at `e`. -/
inductive ChildWalkEnd (edges : List UpgradeEdge) : String → List String → String → Prop
  | nil (x : String) : ChildWalkEnd edges x [] x
  | cons {x y e : String} {rest : List String} :
      y ∈ childrenOf edges x → ChildWalkEnd edges y rest e →
      ChildWalkEnd edges x (y :: rest) e

lemma childWalkEnd_append (edges : List UpgradeEdge) :
    ∀ {x : String} {u : List String} {m : String} {v : List String} {e : String},
      ChildWalkEnd edges x u m → ChildWalkEnd edges m v e →
      ChildWalkEnd edges x (u ++ v) e := by
  intro x u m v e h1 h2
  induction h1 with
  | nil => simpa using h2
  | cons hy _ ih => exact ChildWalkEnd.cons hy (ih h2)

lemma childWalk_pump (edges : List UpgradeEdge) (c : String) (v : List String)
    (h : ChildWalkEnd edges c v c) :
    ∀ n : Nat, ∃ w, ChildWalkEnd edges c w c ∧ w.length = n * v.length := by
  intro n
  induction n with
  | zero => exact ⟨[], ChildWalkEnd.nil c, by simp⟩
  | succ n ih =>
    obtain ⟨w, hw, hlen⟩ := ih
    refine ⟨v ++ w, childWalkEnd_append edges h hw, ?_⟩
    simp only [List.length_append, hlen]
    ring

lemma seqOption_none_of_mem {α β : Type} (f : α → Option β) :
    ∀ (l : List α) (x : α), x ∈ l → f x = none → seqOption (l.map f) = none := by
  intro l
  induction l with
  | nil => intro x hx; cases hx
  | cons a rest ih =>
    intro x hx hfx
    rcases List.mem_cons.mp hx with rfl | hmem
    · simp only [List.map_cons, hfx, seqOption]
    · simp only [List.map_cons]
      cases hfa : f a with
      | none => simp [seqOption]
      | some y => simp [seqOption, ih x hmem hfx]

lemma seqOption_some_of_all {α β : Type} (f : α → Option β) :
    ∀ l : List α, (∀ x ∈ l, ∃ y, f x = some y) →
      ∃ ys, seqOption (l.map f) = some ys := by
  intro l
  induction l with
  | nil => intro _; exact ⟨[], rfl⟩
  | cons a rest ih =>
    intro h
    obtain ⟨y, hy⟩ := h a (List.mem_cons_self _ _)
    obtain ⟨ys, hys⟩ := ih (fun x hx => h x (List.mem_cons_of_mem _ hx))
    exact ⟨y :: ys, by simp [seqOption, hy, hys]⟩

/-- If some children walk from `x` is at least as long as the fuel, the
fuel-indexed `build_node` runs out along it and yields no tree. -/
lemma buildUpgradeNode_none_of_walk (edges : List UpgradeEdge) (items : List ItemRow)
    (treeIds : List String) :
    ∀ (fuel : Nat) (x : String) (w : List String) (e : String),
      ChildWalkEnd edges x w e → fuel ≤ w.length →
      buildUpgradeNode edges items treeIds fuel x = none := by
  intro fuel
  induction fuel with
  | zero => intro x w e _ _; rfl
  | succ fuel ih =>
    intro x w e hw hlen
    cases hw with
    | nil => simp at hlen
    | cons hy hrest =>
      have hchild := ih _ _ _ hrest (by simpa using hlen)
      simp only [buildUpgradeNode,
        seqOption_none_of_mem _ (childrenOf edges x) _ hy hchild]

/-- Universal divergence: when a children cycle is reachable from the
start node, `build_node` yields no tree at any recursion depth — the
Python recursion never returns. -/
lemma buildUpgradeNode_none_of_cycle (edges : List UpgradeEdge) (items : List ItemRow)
    (treeIds : List String) (root : String) (pre loop : List String) (c : String)
    (hpre : ChildWalkEnd edges root pre c) (hloop : ChildWalkEnd edges c loop c)
    (hne : loop ≠ []) :
    ∀ fuel, buildUpgradeNode edges items treeIds fuel root = none := by
  intro fuel
  obtain ⟨w, hw, hwlen⟩ := childWalk_pump edges c loop hloop fuel
  have hpos : 1 ≤ loop.length := List.length_pos.mpr hne
  have hfle : fuel ≤ fuel * loop.length := Nat.le_mul_of_pos_right fuel hpos
  refine buildUpgradeNode_none_of_walk edges items treeIds fuel root (pre ++ w) c
    (childWalkEnd_append edges hpre hw) ?_
  rw [List.length_append, hwlen]
  omega

lemma buildUpgradeNode_succeeds (edges : List UpgradeEdge) (items : List ItemRow)
    (treeIds : List String) (rank : String → Nat)
    (hrank : ∀ a b, b ∈ childrenOf edges a → rank b < rank a) :
    ∀ (fuel : Nat) (root : String), rank root < fuel →
      ∃ t, buildUpgradeNode edges items treeIds fuel root = some t := by
  intro fuel
  induction fuel with
  | zero => intro root h; cases h
  | succ fuel ih =>
    intro root hroot
    have hall : ∀ c ∈ childrenOf edges root, ∃ t,
        buildUpgradeNode edges items treeIds fuel c = some t := by
      intro c hc
      exact ih c (Nat.lt_of_lt_of_le (hrank root c hc) (Nat.lt_succ_iff.mp hroot))
    obtain ⟨ys, hys⟩ := seqOption_some_of_all _ (childrenOf edges root) hall
    cases hb : buildUpgradeNode edges items treeIds (fuel+1) root with
    | some t => exact ⟨t, rfl⟩
    | none =>
      exfalso
      simp only [buildUpgradeNode, hys] at hb
      exact Option.noConfusion hb

lemma buildUpgradeNode_rank_stable (edges : List UpgradeEdge) (items : List ItemRow)
    (treeIds : List String) (rank : String → Nat)
    (hrank : ∀ a b, b ∈ childrenOf edges a → rank b < rank a) :
    ∀ (f₁ f₂ : Nat) (root : String), rank root < f₁ → rank root < f₂ →
      buildUpgradeNode edges items treeIds f₁ root
        = buildUpgradeNode edges items treeIds f₂ root := by
  intro f₁
  induction f₁ with
  | zero => intro f₂ root h1; cases h1
  | succ f₁ ih =>
    intro f₂ root h1 h2
    match f₂, h2 with
    | f₂+1, h2 =>
      simp only [buildUpgradeNode]
      have hmaps : (childrenOf edges root).map
          (fun c => buildUpgradeNode edges items treeIds f₁ c)
          = (childrenOf edges root).map
            (fun c => buildUpgradeNode edges items treeIds f₂ c) :=
        List.map_congr_left (fun c hc => ih f₂ c
          (Nat.lt_of_lt_of_le (hrank root c hc) (Nat.lt_succ_iff.mp h1))
          (Nat.lt_of_lt_of_le (hrank root c hc) (Nat.lt_succ_iff.mp h2)))
      rw [hmaps]

/-- Universal termination on acyclic reachable graphs: a rank strictly
decreasing along children edges certifies acyclicity, and under it
`build_node` returns the same tree at every sufficient recursion depth. -/
lemma buildUpgradeNode_acyclic_total (edges : List UpgradeEdge) (items : List ItemRow)
    (treeIds : List String) (rank : String → Nat)
    (hrank : ∀ a b, b ∈ childrenOf edges a → rank b < rank a) :
    ∀ root, ∃ t, ∀ fuel, rank root < fuel →
      buildUpgradeNode edges items treeIds fuel root = some t := by
  intro root
  obtain ⟨t, ht⟩ := buildUpgradeNode_succeeds edges items treeIds rank hrank
    (rank root + 1) root (Nat.lt_succ_self _)
  refine ⟨t, fun fuel hf => ?_⟩
  rw [buildUpgradeNode_rank_stable edges items treeIds rank hrank fuel
    (rank root + 1) root hf (Nat.lt_succ_self _), ht]

/-- C7 (amended): the root-finding while loop terminates on every edge
set (its result stabilises once the fuel exceeds the finite measure of
unvisited sources), and when a repeat is detected the current node is
silently treated as the root; but the subsequent `build_node` recursion
has no cycle guard, so for every edge set with a children cycle reachable
from the chosen start node the recursion yields no tree at any depth
(the call never terminates), while for every edge set whose children
graph is acyclic (certified by a rank strictly decreasing along children
edges) it returns the same truncated tree at every sufficient depth, with
no distinct cycle signal in either case; on the concrete cyclic pair the
whole call produces no tree, and on a concrete acyclic chain it silently
returns the tree. -/
theorem C7_root_loop_terminates_build_diverges_on_cycle :
    (∀ (edges : List UpgradeEdge) (f₁ f₂ : Nat) (x : String) (vis : List String),
      parentFresh edges vis < f₁ → parentFresh edges vis < f₂ →
      findUpgradeRootAux edges f₁ x vis = findUpgradeRootAux edges f₂ x vis) ∧
    findUpgradeRoot [⟨"A", "B"⟩, ⟨"B", "A"⟩] "A" = "B" ∧
    (∀ (edges : List UpgradeEdge) (items : List ItemRow) (treeIds : List String)
      (root : String) (pre loop : List String) (c : String),
      ChildWalkEnd edges root pre c → ChildWalkEnd edges c loop c → loop ≠ [] →
      ∀ fuel, buildUpgradeNode edges items treeIds fuel root = none) ∧
    (∀ (edges : List UpgradeEdge) (items : List ItemRow) (treeIds : List String)
      (rank : String → Nat),
      (∀ a b, b ∈ childrenOf edges a → rank b < rank a) →
      ∀ root, ∃ t, ∀ fuel, rank root < fuel →
        buildUpgradeNode edges items treeIds fuel root = some t) ∧
    upgradeTreeResult [] [⟨"A", "B"⟩, ⟨"B", "A"⟩] "A" = none ∧
    upgradeTreeResult [] [⟨"A", "B"⟩] "A"
      = some (some (.mk "A" none none [.mk "B" none none []])) :=
  ⟨fun edges f₁ f₂ x vis h1 h2 => findUpgradeRootAux_stable f₁ f₂ edges x vis h1 h2,
    rfl,
    fun edges items treeIds root pre loop c hpre hloop hne =>
      buildUpgradeNode_none_of_cycle edges items treeIds root pre loop c hpre hloop hne,
    fun edges items treeIds rank hrank =>
      buildUpgradeNode_acyclic_total edges items treeIds rank hrank,
    rfl,
    rfl⟩

/-- C7 counterexample: on the cyclic edge set A upgrades to B upgrades to
A, queried at A, `build_node` returns no tree at any recursion depth
(the Python call never returns), so the call does not terminate with a
truncated tree as the claim states. -/
theorem C7_counterexample :
    (∀ n : Nat,
      buildUpgradeNode [⟨"A", "B"⟩, ⟨"B", "A"⟩] []
        (bfsCollect [⟨"A", "B"⟩, ⟨"B", "A"⟩]
          (2 ^ (([⟨"A", "B"⟩, ⟨"B", "A"⟩] : List UpgradeEdge).length + 1))
          [findUpgradeRoot [⟨"A", "B"⟩, ⟨"B", "A"⟩] "A"] []) n
        (findUpgradeRoot [⟨"A", "B"⟩, ⟨"B", "A"⟩] "A") = none) ∧
    upgradeTreeResult [] [⟨"A", "B"⟩, ⟨"B", "A"⟩] "A" = none :=
  ⟨fun n => (cyc_buildNode_none n _ _).2, rfl⟩

/-- Witness for C7: the root-loop stability conjunct at two concrete
fuels, the universal divergence conjunct at the concrete cyclic pair
(root `B`, empty prefix, loop `B → A → B`), and the acyclic-termination
conjunct at the concrete one-edge chain `A → B` with the evident rank. -/
theorem C7_root_loop_witness :
    (parentFresh [⟨"A", "B"⟩, ⟨"B", "A"⟩] ["A"] < 3 ∧
      parentFresh [⟨"A", "B"⟩, ⟨"B", "A"⟩] ["A"] < 9 ∧
      findUpgradeRootAux [⟨"A", "B"⟩, ⟨"B", "A"⟩] 3 "A" ["A"]
        = findUpgradeRootAux [⟨"A", "B"⟩, ⟨"B", "A"⟩] 9 "A" ["A"]) ∧
    buildUpgradeNode [⟨"A", "B"⟩, ⟨"B", "A"⟩] [] [] 5 "B" = none ∧
    (∃ t, ∀ fuel, 1 < fuel →
      buildUpgradeNode [⟨"A", "B"⟩] [] [] fuel "A" = some t) := by
  have hrank : ∀ a b, b ∈ childrenOf [(⟨"A", "B"⟩ : UpgradeEdge)] a →
      (if b = "A" then 1 else 0) < (if a = "A" then 1 else 0) := by
    intro a b hb
    by_cases ha : ("A" : String) = a
    · subst ha
      rw [show childrenOf [(⟨"A", "B"⟩ : UpgradeEdge)] "A" = ["B"] from rfl,
        List.mem_singleton] at hb
      subst hb
      decide
    · have hch : childrenOf [(⟨"A", "B"⟩ : UpgradeEdge)] a = [] := by
        simp [childrenOf, List.filter_cons, ha]
      rw [hch] at hb
      exact absurd hb (List.not_mem_nil b)
  refine ⟨⟨by decide, by decide,
      C7_root_loop_terminates_build_diverges_on_cycle.1 _ 3 9 "A" ["A"]
        (by decide) (by decide)⟩,
    C7_root_loop_terminates_build_diverges_on_cycle.2.2.1
      [⟨"A", "B"⟩, ⟨"B", "A"⟩] [] [] "B" [] ["A", "B"] "B"
      (ChildWalkEnd.nil "B")
      (ChildWalkEnd.cons (by decide)
        (ChildWalkEnd.cons (by decide) (ChildWalkEnd.nil "B")))
      (by decide) 5,
    ?_⟩
  obtain ⟨t, ht⟩ := C7_root_loop_terminates_build_diverges_on_cycle.2.2.2.1
    [⟨"A", "B"⟩] [] [] (fun s => if s = "A" then 1 else 0) hrank "A"
  exact ⟨t, fun fuel hf => ht fuel (by simpa using hf)⟩

/-! ## Cooking chain resolution (_get_full_cooking_chain, items.py 238-292)

Backward walk: repeatedly query the first item whose consumable cooks
into the current id, with a visited-set cycle guard, to find the raw
root.  Forward walk: from the root, follow `cooked_item_row_id` (through
an outer join, so items without a consumable row read as a null pointer),
recording row id, name, icon and `requires_baking`, until the pointer is
null, the item is missing, or an id repeats.  A chain of length at most
one is returned as the empty list. -/

/-- The transformation slice of a `Consumable` row. -/
structure ConsumableRow where
  cookedTo : Option String
  burnedTo : Option String
  decayedTo : Option String
  requiresBaking : Option Bool
deriving DecidableEq, Repr

/-- An `Item` row together with its optional `Consumable` row. -/
structure FoodItemRow where
  rowId : String
  name : String
  iconPath : Option String
  consumable : Option ConsumableRow
deriving DecidableEq, Repr

abbrev FoodCatalog := List FoodItemRow

/-- A `LinkedItemResponse` entry of the returned chain. -/
structure LinkedItem where
  rowId : String
  name : String
  iconPath : Option String
  requiresBaking : Option Bool
deriving DecidableEq, Repr

/-- The backward query: the first item (in table order) whose consumable
cooks into the given id.  The join with `Consumable` is inner, so items
without a consumable row never match. -/
def findCookParent (cat : FoodCatalog) (target : String) : Option FoodItemRow :=
  cat.find? (fun i =>
    match i.consumable with
    | some c => c.cookedTo == some target
    | none => false)

/-- Item lookup by `row_id`. -/
def lookupFoodItem (cat : FoodCatalog) (rowId : String) : Option FoodItemRow :=
  cat.find? (fun i => i.rowId == rowId)

/-- The backward while loop finding the raw root: stop when no item cooks
into the current one or the parent id was already visited. -/
def cookRootAux (cat : FoodCatalog) : Nat → String → List String → String
  | 0, current, _ => current
  | fuel+1, current, visited =>
    match findCookParent cat current with
    | none => current
    | some p =>
      if p.rowId ∈ visited then current
      else cookRootAux cat fuel p.rowId (p.rowId :: visited)

/-- The forward while loop from the root: record the item and follow its
`cooked_item_row_id` pointer, stopping on a null id, a repeat, or a
missing item row. -/
def cookForward (cat : FoodCatalog) : Nat → Option String → List String → List LinkedItem
  | 0, _, _ => []
  | _+1, none, _ => []
  | fuel+1, some current, visited =>
    if current ∈ visited then []
    else
      match lookupFoodItem cat current with
      | none => []
      | some it =>
        ⟨it.rowId, it.name, it.iconPath, it.consumable.bind (·.requiresBaking)⟩ ::
          cookForward cat fuel (it.consumable.bind (·.cookedTo)) (current :: visited)

/-- Embedding of `_get_full_cooking_chain`: find the raw root backward,
walk the chain forward, and return it only when it has more than one
element.  The fuels exceed the catalog size, which bounds both loops
(each iteration visits a fresh catalog row). -/
def cookingChain (cat : FoodCatalog) (rowId : String) : List LinkedItem :=
  let root := cookRootAux cat (cat.length + 1) rowId [rowId]
  let chain := cookForward cat (cat.length + 1) (some root) []
  if chain.length > 1 then chain else []

/-- The cooked-to pointer of an item id as stored in the catalog: `none`
for a missing item or a missing pointer. -/
def cookedPtr (cat : FoodCatalog) (rowId : String) : Option String :=
  match lookupFoodItem cat rowId with
  | none => none
  | some it => it.consumable.bind (·.cookedTo)

/-- Adjacent elements of the list are linked by the catalog cooked-to
pointer. -/
def chainLinked (cat : FoodCatalog) : List LinkedItem → Prop
  | a :: b :: rest => cookedPtr cat a.rowId = some b.rowId ∧ chainLinked cat (b :: rest)
  | _ => True

/-- Row-by-row agreement of two catalogs on everything the cooking chain
reads: ids, names, icons, consumable presence, cooked-to pointers and
baking flags.  The burned-to and decayed-to pointers are left completely
free. -/
def agreeExceptBurnedDecayed : FoodCatalog → FoodCatalog → Bool
  | [], [] => true
  | i₁ :: r₁, i₂ :: r₂ =>
    i₁.rowId == i₂.rowId && i₁.name == i₂.name && i₁.iconPath == i₂.iconPath &&
    (match i₁.consumable, i₂.consumable with
     | none, none => true
     | some c₁, some c₂ =>
       c₁.cookedTo == c₂.cookedTo && c₁.requiresBaking == c₂.requiresBaking
     | _, _ => false) &&
    agreeExceptBurnedDecayed r₁ r₂
  | _, _ => false

/-- The worked cooking example: raw cooks into cooked, cooked has only a
burned side-branch, and an inedible item has no transformations. -/
def exFoodCat : FoodCatalog :=
  [ ⟨"raw", "Raw Meat", none, some ⟨some "cooked", none, none, some false⟩⟩,
    ⟨"cooked", "Cooked Meat", none, some ⟨none, some "burned", none, some true⟩⟩,
    ⟨"burned", "Burned Meat", none, some ⟨none, none, none, none⟩⟩,
    ⟨"raw_nocook", "Inedible", none, none⟩ ]

/-- The same catalog with the burned and decayed side-branches rewired. -/
def exFoodCatAlt : FoodCatalog :=
  [ ⟨"raw", "Raw Meat", none, some ⟨some "cooked", some "ash", some "slop", some false⟩⟩,
    ⟨"cooked", "Cooked Meat", none, some ⟨none, none, some "slop", some true⟩⟩,
    ⟨"burned", "Burned Meat", none, some ⟨none, some "ash", none, none⟩⟩,
    ⟨"raw_nocook", "Inedible", none, none⟩ ]

/-! ## Lemmas about the cooking chain -/

lemma cookForward_head (cat : FoodCatalog) :
    ∀ (fuel : Nat) (co : Option String) (vis : List String) (a : LinkedItem)
      (rest : List LinkedItem),
      cookForward cat fuel co vis = a :: rest → co = some a.rowId := by
  intro fuel
  cases fuel with
  | zero => intro co vis a rest h; simp [cookForward] at h
  | succ fuel =>
    intro co vis a rest h
    cases co with
    | none => simp [cookForward] at h
    | some cur =>
      simp only [cookForward] at h
      by_cases hv : cur ∈ vis
      · rw [if_pos hv] at h; cases h
      · rw [if_neg hv] at h
        cases hl : lookupFoodItem cat cur with
        | none => simp only [hl] at h; cases h
        | some it =>
          simp only [hl] at h
          have hit : it.rowId = cur := by
            have hp := List.find?_some hl
            simpa using hp
          cases h
          simp [hit]

lemma cookForward_linked (cat : FoodCatalog) :
    ∀ (fuel : Nat) (co : Option String) (vis : List String),
      chainLinked cat (cookForward cat fuel co vis) := by
  intro fuel
  induction fuel with
  | zero => intro co vis; simp [cookForward, chainLinked]
  | succ fuel ih =>
    intro co vis
    cases co with
    | none => simp [cookForward, chainLinked]
    | some cur =>
      simp only [cookForward]
      by_cases hv : cur ∈ vis
      · rw [if_pos hv]; simp [chainLinked]
      · rw [if_neg hv]
        cases hl : lookupFoodItem cat cur with
        | none => simp [chainLinked]
        | some it =>
          have hit : it.rowId = cur := by
            have hp := List.find?_some hl
            simpa using hp
          cases htail : cookForward cat fuel (it.consumable.bind (·.cookedTo))
              (cur :: vis) with
          | nil => simp [htail, chainLinked]
          | cons b brest =>
            simp only [htail, chainLinked]
            refine ⟨?_, htail ▸ ih _ _⟩
            have hhead := cookForward_head cat fuel _ _ b brest htail
            unfold cookedPtr
            simp only [hit, hl]
            exact hhead

lemma agree_cons {i₁ i₂ : FoodItemRow} {r₁ r₂ : FoodCatalog}
    (h : agreeExceptBurnedDecayed (i₁ :: r₁) (i₂ :: r₂) = true) :
    (i₁.rowId = i₂.rowId ∧ i₁.name = i₂.name ∧ i₁.iconPath = i₂.iconPath ∧
     i₁.consumable.bind (·.cookedTo) = i₂.consumable.bind (·.cookedTo) ∧
     i₁.consumable.bind (·.requiresBaking) = i₂.consumable.bind (·.requiresBaking) ∧
     i₁.consumable.isSome = i₂.consumable.isSome) ∧
    agreeExceptBurnedDecayed r₁ r₂ = true := by
  simp only [agreeExceptBurnedDecayed, Bool.and_eq_true, beq_iff_eq, and_assoc] at h
  obtain ⟨hid, hname, hicon, hcons, hrest⟩ := h
  refine ⟨⟨hid, hname, hicon, ?_, ?_, ?_⟩, hrest⟩
  · cases hc₁ : i₁.consumable with
    | none =>
      cases hc₂ : i₂.consumable with
      | none => simp
      | some c₂ => simp only [hc₁, hc₂] at hcons; exact Bool.noConfusion hcons
    | some c₁ =>
      cases hc₂ : i₂.consumable with
      | none => simp only [hc₁, hc₂] at hcons; exact Bool.noConfusion hcons
      | some c₂ =>
        simp only [hc₁, hc₂, Bool.and_eq_true, beq_iff_eq] at hcons
        simp [hcons.1]
  · cases hc₁ : i₁.consumable with
    | none =>
      cases hc₂ : i₂.consumable with
      | none => simp
      | some c₂ => simp only [hc₁, hc₂] at hcons; exact Bool.noConfusion hcons
    | some c₁ =>
      cases hc₂ : i₂.consumable with
      | none => simp only [hc₁, hc₂] at hcons; exact Bool.noConfusion hcons
      | some c₂ =>
        simp only [hc₁, hc₂, Bool.and_eq_true, beq_iff_eq] at hcons
        simp [hcons.2]
  · cases hc₁ : i₁.consumable with
    | none =>
      cases hc₂ : i₂.consumable with
      | none => simp
      | some c₂ => simp only [hc₁, hc₂] at hcons; exact Bool.noConfusion hcons
    | some c₁ =>
      cases hc₂ : i₂.consumable with
      | none => simp only [hc₁, hc₂] at hcons; exact Bool.noConfusion hcons
      | some c₂ => simp

lemma agree_length :
    ∀ {c₁ c₂ : FoodCatalog}, agreeExceptBurnedDecayed c₁ c₂ = true →
      c₁.length = c₂.length := by
  intro c₁
  induction c₁ with
  | nil =>
    intro c₂ h
    cases c₂ with
    | nil => rfl
    | cons i₂ r₂ => simp [agreeExceptBurnedDecayed] at h
  | cons i₁ r₁ ih =>
    intro c₂ h
    cases c₂ with
    | nil => simp [agreeExceptBurnedDecayed] at h
    | cons i₂ r₂ => simp [ih (agree_cons h).2]

lemma agree_findCookParent :
    ∀ {c₁ c₂ : FoodCatalog}, agreeExceptBurnedDecayed c₁ c₂ = true → ∀ t,
      Option.map (·.rowId) (findCookParent c₁ t)
        = Option.map (·.rowId) (findCookParent c₂ t) := by
  intro c₁
  induction c₁ with
  | nil =>
    intro c₂ h t
    cases c₂ with
    | nil => rfl
    | cons i₂ r₂ => simp [agreeExceptBurnedDecayed] at h
  | cons i₁ r₁ ih =>
    intro c₂ h t
    cases c₂ with
    | nil => simp [agreeExceptBurnedDecayed] at h
    | cons i₂ r₂ =>
      obtain ⟨⟨hid, hname, hicon, hcook, hbake, hsome⟩, hrest⟩ := agree_cons h
      have hpred : (match i₁.consumable with
            | some c => c.cookedTo == some t
            | none => false) =
          (match i₂.consumable with
            | some c => c.cookedTo == some t
            | none => false) := by
        cases hc₁ : i₁.consumable with
        | none =>
          cases hc₂ : i₂.consumable with
          | none => rfl
          | some c₂ => rw [hc₁, hc₂] at hsome; simp at hsome
        | some c₁ =>
          cases hc₂ : i₂.consumable with
          | none => rw [hc₁, hc₂] at hsome; simp at hsome
          | some c₂ =>
            have hct : c₁.cookedTo = c₂.cookedTo := by
              simpa [hc₁, hc₂] using hcook
            simp [hct]
      unfold findCookParent
      simp only [List.find?]
      rw [hpred]
      cases hp : (match i₂.consumable with
          | some c => c.cookedTo == some t
          | none => false) with
      | true => simp [hid]
      | false => exact ih hrest t

lemma agree_cookRoot {c₁ c₂ : FoodCatalog} (h : agreeExceptBurnedDecayed c₁ c₂ = true) :
    ∀ (fuel : Nat) (cur : String) (vis : List String),
      cookRootAux c₁ fuel cur vis = cookRootAux c₂ fuel cur vis := by
  intro fuel
  induction fuel with
  | zero => intro cur vis; rfl
  | succ fuel ih =>
    intro cur vis
    have hmap := agree_findCookParent h cur
    cases hp₁ : findCookParent c₁ cur with
    | none =>
      cases hp₂ : findCookParent c₂ cur with
      | none => simp [cookRootAux, hp₁, hp₂]
      | some p₂ => rw [hp₁, hp₂] at hmap; simp at hmap
    | some p₁ =>
      cases hp₂ : findCookParent c₂ cur with
      | none => rw [hp₁, hp₂] at hmap; simp at hmap
      | some p₂ =>
        rw [hp₁, hp₂] at hmap
        simp only [Option.map_some'] at hmap
        have hpp : p₁.rowId = p₂.rowId := by injection hmap
        simp only [cookRootAux, hp₁, hp₂, hpp]
        by_cases hv : p₂.rowId ∈ vis
        · simp [hv]
        · simp only [hv, if_false]
          exact ih p₂.rowId (p₂.rowId :: vis)

lemma agree_lookup :
    ∀ {c₁ c₂ : FoodCatalog}, agreeExceptBurnedDecayed c₁ c₂ = true → ∀ x,
      (lookupFoodItem c₁ x = none ∧ lookupFoodItem c₂ x = none) ∨
      (∃ i₁ i₂, lookupFoodItem c₁ x = some i₁ ∧ lookupFoodItem c₂ x = some i₂ ∧
        i₁.rowId = i₂.rowId ∧ i₁.name = i₂.name ∧ i₁.iconPath = i₂.iconPath ∧
        i₁.consumable.bind (·.cookedTo) = i₂.consumable.bind (·.cookedTo) ∧
        i₁.consumable.bind (·.requiresBaking) = i₂.consumable.bind (·.requiresBaking)) := by
  intro c₁
  induction c₁ with
  | nil =>
    intro c₂ h x
    cases c₂ with
    | nil => exact Or.inl ⟨rfl, rfl⟩
    | cons i₂ r₂ => simp [agreeExceptBurnedDecayed] at h
  | cons i₁ r₁ ih =>
    intro c₂ h x
    cases c₂ with
    | nil => simp [agreeExceptBurnedDecayed] at h
    | cons i₂ r₂ =>
      obtain ⟨⟨hid, hname, hicon, hcook, hbake, _⟩, hrest⟩ := agree_cons h
      unfold lookupFoodItem
      simp only [List.find?]
      rw [hid]
      cases hp : (i₂.rowId == x) with
      | true => exact Or.inr ⟨i₁, i₂, rfl, rfl, hid, hname, hicon, hcook, hbake⟩
      | false => exact ih hrest x

lemma agree_cookForward {c₁ c₂ : FoodCatalog} (h : agreeExceptBurnedDecayed c₁ c₂ = true) :
    ∀ (fuel : Nat) (co : Option String) (vis : List String),
      cookForward c₁ fuel co vis = cookForward c₂ fuel co vis := by
  intro fuel
  induction fuel with
  | zero => intro co vis; rfl
  | succ fuel ih =>
    intro co vis
    cases co with
    | none => rfl
    | some cur =>
      simp only [cookForward]
      by_cases hv : cur ∈ vis
      · simp [hv]
      · simp only [hv, if_false]
        rcases agree_lookup h cur with ⟨h₁, h₂⟩ |
          ⟨i₁, i₂, h₁, h₂, hid, hname, hicon, hcook, hbake⟩
        · simp only [h₁, h₂]
        · simp only [h₁, h₂, hid, hname, hicon, hcook, hbake]
          rw [ih]

lemma agree_cookingChain {c₁ c₂ : FoodCatalog} (h : agreeExceptBurnedDecayed c₁ c₂ = true)
    (x : String) : cookingChain c₁ x = cookingChain c₂ x := by
  simp only [cookingChain]
  rw [agree_length h, agree_cookRoot h, agree_cookForward h]

/-! ## Claim C8 -/

/-- C8: the cooking chain is empty or has at least two elements (a chain
of length one or less is returned as the empty list); its consecutive
elements are linked by the cooked-to pointer only; two catalogs that
agree on everything except the burned-to and decayed-to side branches
produce identical chains (so items reached only through those pointers
never enter the result); and on the worked example the chain of the
cooked item is raw then cooked, while the item with no cooked form
yields the empty list. -/
theorem C8_cooking_chain_follows_cookedTo_only :
    (∀ (cat : FoodCatalog) (rowId : String),
      cookingChain cat rowId = [] ∨ 2 ≤ (cookingChain cat rowId).length) ∧
    (∀ (cat : FoodCatalog) (rowId : String), chainLinked cat (cookingChain cat rowId)) ∧
    (∀ (c₁ c₂ : FoodCatalog) (rowId : String), agreeExceptBurnedDecayed c₁ c₂ = true →
      cookingChain c₁ rowId = cookingChain c₂ rowId) ∧
    cookingChain exFoodCat "cooked" =
      [ ⟨"raw", "Raw Meat", none, some false⟩,
        ⟨"cooked", "Cooked Meat", none, some true⟩ ] ∧
    cookingChain exFoodCat "raw_nocook" = [] := by
  refine ⟨?_, ?_, fun c₁ c₂ x h => agree_cookingChain h x, rfl, rfl⟩
  · intro cat rowId
    simp only [cookingChain]
    by_cases hl : (cookForward cat (cat.length + 1)
        (some (cookRootAux cat (cat.length + 1) rowId [rowId])) []).length > 1
    · right
      rw [if_pos hl]
      omega
    · left
      rw [if_neg hl]
  · intro cat rowId
    simp only [cookingChain]
    by_cases hl : (cookForward cat (cat.length + 1)
        (some (cookRootAux cat (cat.length + 1) rowId [rowId])) []).length > 1
    · rw [if_pos hl]
      exact cookForward_linked cat _ _ _
    · rw [if_neg hl]
      simp [chainLinked]

/-- Witness for C8: rewiring every burned-to and decayed-to pointer leaves
the cooking chain unchanged. -/
theorem C8_cooking_chain_witness :
    agreeExceptBurnedDecayed exFoodCat exFoodCatAlt = true ∧
    cookingChain exFoodCat "cooked" = cookingChain exFoodCatAlt "cooked" :=
  ⟨by decide,
    C8_cooking_chain_follows_cookedTo_only.2.2.1 exFoodCat exFoodCatAlt "cooked" (by decide)⟩

/-! ## Recipe variant expansion (get_item, items.py 759-815)

A recipe whose ingredients reference substitution groups is split into
one concrete recipe per combination of the Cartesian product over the
per-position option lists; `_build_recipe_response` then zips the
position-sorted ingredient rows with the chosen row ids, clearing the
substitution flags when the recipe is an expanded variant. -/

/-- A `RecipeIngredient` row slice.  For a substitution-group ingredient
the group reference is stored in `item_row_id` (that is the key looked up
in `substitute_groups`). -/
structure SrcIngredient where
  itemRowId : String
  quantity : Nat
  isSubstituteGroup : Bool
  substituteGroupRowId : Option String
  position : Nat
deriving DecidableEq, Repr

/-- A `Recipe` row slice: the bench and scalar metadata fields that the
expansion merely copies through are omitted. -/
structure SrcRecipe where
  rowId : String
  outputItemRowId : String
  ingredients : List SrcIngredient
deriving DecidableEq, Repr

/-- The `substitute_groups` dict built in get_item: group row id to the
member item row ids. -/
abbrev SubstituteGroups := List (String × List String)

def lookupGroup (groups : SubstituteGroups) (rowId : String) : Option (List String) :=
  (groups.find? (fun g => g.1 == rowId)).map (·.2)

/-- Stable insertion (ascending by position), modelling the Python stable
`sorted(recipe.ingredients, key=lambda x: x.position)`. -/
def insertByPosition (e : SrcIngredient) : List SrcIngredient → List SrcIngredient
  | [] => [e]
  | x :: xs => if x.position < e.position then x :: insertByPosition e xs else e :: x :: xs

def sortByPosition : List SrcIngredient → List SrcIngredient
  | [] => []
  | x :: xs => insertByPosition x (sortByPosition xs)

/-- The `IngredientItemResponse` slice. -/
structure IngredientItemInfo where
  rowId : String
  name : Option String
  iconPath : Option String
deriving DecidableEq, Repr

/-- The `RecipeIngredientResponse` slice read by the claims. -/
structure RecipeIngredientResponse where
  itemRowId : String
  quantity : Nat
  isSubstituteGroup : Bool
  substituteGroupRowId : Option String
  position : Nat
  item : Option IngredientItemInfo
deriving DecidableEq, Repr

/-- The `RecipeResponse` slice read by the claims. -/
structure RecipeResponse where
  rowId : String
  outputItemRowId : String
  ingredients : List RecipeIngredientResponse
deriving DecidableEq, Repr

/-- One enriched ingredient of `_build_recipe_response`: the source row
zipped with its final (possibly substituted) item row id; substitution
markers are cleared on expanded variants. -/
def enrichIngredient (items : List ItemRow) (isExpanded : Bool)
    (p : SrcIngredient × String) : RecipeIngredientResponse :=
  { itemRowId := p.2
    quantity := p.1.quantity
    isSubstituteGroup := if isExpanded then false else p.1.isSubstituteGroup
    substituteGroupRowId := if isExpanded then none else p.1.substituteGroupRowId
    position := p.1.position
    item := (lookupItemRow items p.2).map (fun it => ⟨p.2, some it.name, it.iconPath⟩) }

/-- Embedding of `_build_recipe_response` (items.py 295-355), ingredient
part: zip the position-sorted ingredient rows with the supplied final row
ids and enrich each pair. -/
def buildRecipeResponse (items : List ItemRow) (recipe : SrcRecipe)
    (ingredientRowIds : List String) (isExpanded : Bool) : RecipeResponse :=
  ⟨recipe.rowId, recipe.outputItemRowId,
    ((sortByPosition recipe.ingredients).zip ingredientRowIds).map
      (enrichIngredient items isExpanded)⟩

/-- The order of `itertools.product`: first position slowest, last
fastest. -/
def listProduct {α : Type} : List (List α) → List (List α)
  | [] => [[]]
  | l :: ls => l.bind (fun x => (listProduct ls).map (x :: ·))

/-- The per-position option lists of get_item lines 802-809: a resolvable
substitution group contributes its member list, any other ingredient
contributes itself as the single option. -/
def variantOptions (groups : SubstituteGroups) (sorted : List SrcIngredient) :
    List (List String) :=
  sorted.map (fun ing =>
    if ing.isSubstituteGroup then
      match lookupGroup groups ing.itemRowId with
      | some members => members
      | none => [ing.itemRowId]
    else [ing.itemRowId])

/-- Embedding of the per-recipe enrichment of get_item lines 783-815:
without resolvable substitutes, one unexpanded response; otherwise one
expanded response per combination of the Cartesian product. -/
def expandItemRecipe (groups : SubstituteGroups) (items : List ItemRow)
    (recipe : SrcRecipe) : List RecipeResponse :=
  let sorted := sortByPosition recipe.ingredients
  let hasSubstitutes := sorted.any (fun ing =>
    ing.isSubstituteGroup && (lookupGroup groups ing.itemRowId).isSome)
  if !hasSubstitutes then
    [buildRecipeResponse items recipe (sorted.map (·.itemRowId)) false]
  else
    (listProduct (variantOptions groups sorted)).map (fun combination =>
      buildRecipeResponse items recipe combination true)

/-- The full `enriched_recipes` list of get_item: recipes expanded in
order. -/
def enrichedRecipes (groups : SubstituteGroups) (items : List ItemRow)
    (recipes : List SrcRecipe) : List RecipeResponse :=
  recipes.bind (expandItemRecipe groups items)

/-! ## Lemmas about the Cartesian expansion -/

lemma listProduct_cons_length {α : Type} (l : List α) (ls : List (List α)) :
    (listProduct (l :: ls)).length = l.length * (listProduct ls).length := by
  show (l.bind fun x => (listProduct ls).map (x :: ·)).length = _
  induction l with
  | nil => simp
  | cons x xs ih =>
    simp only [List.cons_bind, List.length_append, List.length_map, List.length_cons, ih]
    ring

lemma listProduct_length {α : Type} :
    ∀ ls : List (List α), (listProduct ls).length = (ls.map List.length).prod := by
  intro ls
  induction ls with
  | nil => rfl
  | cons l ls ih =>
    rw [listProduct_cons_length, ih, List.map_cons, List.prod_cons]

lemma listProduct_mem_length {α : Type} :
    ∀ (ls : List (List α)) (c : List α), c ∈ listProduct ls → c.length = ls.length := by
  intro ls
  induction ls with
  | nil =>
    intro c hc
    simp only [listProduct, List.mem_singleton] at hc
    simp [hc]
  | cons l ls ih =>
    intro c hc
    simp only [listProduct, List.mem_bind, List.mem_map] at hc
    obtain ⟨x, _, t, ht, rfl⟩ := hc
    simp [ih t ht]

lemma listProduct_nodup {α : Type} [DecidableEq α] :
    ∀ ls : List (List α), (∀ l ∈ ls, l.Nodup) → (listProduct ls).Nodup := by
  intro ls
  induction ls with
  | nil => intro _; simp [listProduct]
  | cons l ls ih =>
    intro h
    have hl : l.Nodup := h l (List.mem_cons_self _ _)
    have hrest : (listProduct ls).Nodup :=
      ih (fun a ha => h a (List.mem_cons_of_mem _ ha))
    show (l.bind fun x => (listProduct ls).map (x :: ·)).Nodup
    rw [List.nodup_bind]
    refine ⟨fun x _ => hrest.map (fun a b hab => by injection hab), ?_⟩
    refine hl.imp ?_
    intro a b hab y hya hyb
    simp only [List.mem_map] at hya hyb
    obtain ⟨t₁, _, rfl⟩ := hya
    obtain ⟨t₂, _, heq⟩ := hyb
    exact hab (by injection heq with h1 _; exact h1.symm)

lemma listProduct_of_mem_nil {α : Type} :
    ∀ ls : List (List α), [] ∈ ls → listProduct ls = [] := by
  intro ls
  induction ls with
  | nil => intro h; cases h
  | cons l ls ih =>
    intro h
    rcases List.mem_cons.mp h with rfl | hmem
    · rfl
    · show (l.bind fun x => (listProduct ls).map (x :: ·)) = []
      rw [ih hmem]
      simp

lemma enrich_map_quantity (items : List ItemRow) (b : Bool) :
    ∀ (l₁ : List SrcIngredient) (l₂ : List String), l₁.length = l₂.length →
      (((l₁.zip l₂).map (enrichIngredient items b)).map (·.quantity))
        = l₁.map (·.quantity) := by
  intro l₁
  induction l₁ with
  | nil => intro l₂ _; simp
  | cons x xs ih =>
    intro l₂ h
    cases l₂ with
    | nil => simp at h
    | cons y ys => simp [enrichIngredient, ih ys (by simpa using h)]

lemma enrich_map_position (items : List ItemRow) (b : Bool) :
    ∀ (l₁ : List SrcIngredient) (l₂ : List String), l₁.length = l₂.length →
      (((l₁.zip l₂).map (enrichIngredient items b)).map (·.position))
        = l₁.map (·.position) := by
  intro l₁
  induction l₁ with
  | nil => intro l₂ _; simp
  | cons x xs ih =>
    intro l₂ h
    cases l₂ with
    | nil => simp at h
    | cons y ys => simp [enrichIngredient, ih ys (by simpa using h)]

lemma enrich_map_itemRowId (items : List ItemRow) (b : Bool) :
    ∀ (l₁ : List SrcIngredient) (l₂ : List String), l₁.length = l₂.length →
      (((l₁.zip l₂).map (enrichIngredient items b)).map (·.itemRowId)) = l₂ := by
  intro l₁
  induction l₁ with
  | nil =>
    intro l₂ h
    cases l₂ with
    | nil => simp
    | cons y ys => simp at h
  | cons x xs ih =>
    intro l₂ h
    cases l₂ with
    | nil => simp at h
    | cons y ys => simp [enrichIngredient, ih ys (by simpa using h)]

lemma enrich_flags_cleared (items : List ItemRow) (l₁ : List SrcIngredient)
    (l₂ : List String) :
    ∀ ri ∈ (l₁.zip l₂).map (enrichIngredient items true),
      ri.isSubstituteGroup = false ∧ ri.substituteGroupRowId = none := by
  intro ri hri
  rcases List.mem_map.mp hri with ⟨p, _, rfl⟩
  exact ⟨rfl, rfl⟩

lemma variantOptions_lengths (groups : SubstituteGroups) (sorted : List SrcIngredient) :
    (variantOptions groups sorted).map List.length = sorted.map (fun ing =>
      if ing.isSubstituteGroup then
        match lookupGroup groups ing.itemRowId with
        | some members => members.length
        | none => 1
      else 1) := by
  unfold variantOptions
  rw [List.map_map]
  refine List.map_congr_left ?_
  intro ing _
  by_cases hf : ing.isSubstituteGroup = true
  · simp only [Function.comp_apply, hf, if_true]
    cases lookupGroup groups ing.itemRowId <;> simp
  · simp [Function.comp_apply, hf]

lemma variantOptions_length (groups : SubstituteGroups) (sorted : List SrcIngredient) :
    (variantOptions groups sorted).length = sorted.length := by
  simp [variantOptions]

/-! ## Claim C5 -/

/-- C5: expanding a recipe that has at least one resolvable
substitution-group ingredient produces exactly the Cartesian product of
the per-position option counts (group size at a resolvable group
position, one otherwise) — so for group sizes n1..nk exactly n1 × … × nk
concrete recipes; when every group member list is duplicate-free the
combinations are pairwise distinct; and every produced variant keeps the
original ingredient quantities and positions with the substitution flag
and group reference cleared. -/
theorem C5_substitution_cartesian_product (groups : SubstituteGroups)
    (items : List ItemRow) (recipe : SrcRecipe)
    (hhas : (sortByPosition recipe.ingredients).any (fun ing =>
      ing.isSubstituteGroup && (lookupGroup groups ing.itemRowId).isSome) = true)
    (hnodup : ∀ ing ∈ sortByPosition recipe.ingredients,
      ((lookupGroup groups ing.itemRowId).getD []).Nodup) :
    (expandItemRecipe groups items recipe).length
      = ((sortByPosition recipe.ingredients).map (fun ing =>
          if ing.isSubstituteGroup then
            match lookupGroup groups ing.itemRowId with
            | some members => members.length
            | none => 1
          else 1)).prod ∧
    ((expandItemRecipe groups items recipe).map
      (fun r => r.ingredients.map (·.itemRowId))).Nodup ∧
    ∀ r ∈ expandItemRecipe groups items recipe,
      r.ingredients.map (·.quantity)
          = (sortByPosition recipe.ingredients).map (·.quantity) ∧
      r.ingredients.map (·.position)
          = (sortByPosition recipe.ingredients).map (·.position) ∧
      ∀ ri ∈ r.ingredients, ri.isSubstituteGroup = false ∧
        ri.substituteGroupRowId = none := by
  have hexp : expandItemRecipe groups items recipe
      = (listProduct (variantOptions groups (sortByPosition recipe.ingredients))).map
          (fun combination => buildRecipeResponse items recipe combination true) := by
    simp [expandItemRecipe, hhas]
  have hcomblen : ∀ comb ∈ listProduct
      (variantOptions groups (sortByPosition recipe.ingredients)),
      (sortByPosition recipe.ingredients).length = comb.length := by
    intro comb hc
    rw [listProduct_mem_length _ comb hc, variantOptions_length]
  refine ⟨?_, ?_, ?_⟩
  · rw [hexp, List.length_map, listProduct_length, variantOptions_lengths]
  · rw [hexp, List.map_map]
    have hpoint : ∀ comb ∈ listProduct
        (variantOptions groups (sortByPosition recipe.ingredients)),
        ((fun r : RecipeResponse => r.ingredients.map (·.itemRowId)) ∘
          (fun combination => buildRecipeResponse items recipe combination true)) comb
          = comb := by
      intro comb hc
      simp only [Function.comp_apply, buildRecipeResponse]
      exact enrich_map_itemRowId items true _ comb (hcomblen comb hc)
    rw [List.map_congr_left hpoint, List.map_id']
    refine listProduct_nodup _ ?_
    intro opt hopt
    rcases List.mem_map.mp hopt with ⟨ing, hing, rfl⟩
    by_cases hf : ing.isSubstituteGroup = true
    · simp only [hf, if_true]
      cases hlook : lookupGroup groups ing.itemRowId with
      | none => simp
      | some members =>
        have := hnodup ing hing
        rw [hlook] at this
        simpa using this
    · simp [hf]
  · intro r hr
    rw [hexp] at hr
    rcases List.mem_map.mp hr with ⟨comb, hcomb, rfl⟩
    refine ⟨?_, ?_, ?_⟩
    · exact enrich_map_quantity items true _ comb (hcomblen comb hcomb)
    · exact enrich_map_position items true _ comb (hcomblen comb hcomb)
    · exact enrich_flags_cleared items _ comb

/-- The [2,3] worked example: the first and third ingredient positions
reference substitution groups with two and three members. -/
def exGroups : SubstituteGroups :=
  [("g1", ["x1", "x2"]), ("g2", ["y1", "y2", "y3"])]

def exSubstRecipe : SrcRecipe :=
  ⟨"r1", "out1",
    [ ⟨"g1", 2, true, some "g1", 0⟩,
      ⟨"mid", 5, false, none, 1⟩,
      ⟨"g2", 1, true, some "g2", 2⟩ ]⟩

/-- Witness for C5: the [2,3] example expands to exactly six pairwise
distinct concrete variants. -/
theorem C5_substitution_cartesian_product_witness :
    (expandItemRecipe exGroups [] exSubstRecipe).length = 6 ∧
    ((expandItemRecipe exGroups [] exSubstRecipe).map
      (fun r => r.ingredients.map (·.itemRowId))).Nodup :=
  ⟨((C5_substitution_cartesian_product exGroups [] exSubstRecipe
      (by decide) (by decide)).1).trans (by decide),
    (C5_substitution_cartesian_product exGroups [] exSubstRecipe
      (by decide) (by decide)).2.1⟩

/-! ## Claim C10 -/

/-- C10: a recipe with an ingredient referencing a substitution group
that resolves to zero members expands to zero concrete recipes (the
Cartesian product over the option lists is empty), so the recipe is
silently dropped from the enriched recipe list of the item. -/
theorem C10_empty_group_drops_recipe (groups : SubstituteGroups) (items : List ItemRow)
    (recipe : SrcRecipe)
    (hmem : ∃ ing ∈ sortByPosition recipe.ingredients,
      ing.isSubstituteGroup = true ∧ lookupGroup groups ing.itemRowId = some []) :
    expandItemRecipe groups items recipe = [] ∧
    ∀ (pre post : List SrcRecipe),
      enrichedRecipes groups items (pre ++ recipe :: post)
        = enrichedRecipes groups items pre ++ enrichedRecipes groups items post := by
  obtain ⟨ing, hing, hflag, hlook⟩ := hmem
  have hhas : (sortByPosition recipe.ingredients).any (fun ing =>
      ing.isSubstituteGroup && (lookupGroup groups ing.itemRowId).isSome) = true := by
    rw [List.any_eq_true]
    exact ⟨ing, hing, by simp [hflag, hlook]⟩
  have hnil : [] ∈ variantOptions groups (sortByPosition recipe.ingredients) := by
    unfold variantOptions
    refine List.mem_map.mpr ⟨ing, hing, ?_⟩
    simp [hflag, hlook]
  have hexp : expandItemRecipe groups items recipe = [] := by
    simp [expandItemRecipe, hhas, listProduct_of_mem_nil _ hnil]
  refine ⟨hexp, ?_⟩
  intro pre post
  simp [enrichedRecipes, List.append_bind, List.cons_bind, hexp]

/-- A plain recipe with no substitution groups, used beside the dropped
one. -/
def exPlainRecipe : SrcRecipe :=
  ⟨"r3", "out3", [⟨"stone", 3, false, none, 0⟩]⟩

def exEmptyGroups : SubstituteGroups := [("emptyGrp", [])]

def exEmptyGroupRecipe : SrcRecipe :=
  ⟨"r2", "out2",
    [ ⟨"emptyGrp", 1, true, some "emptyGrp", 0⟩,
      ⟨"stone", 3, false, none, 1⟩ ]⟩

/-- Witness for C10: the recipe referencing the empty group vanishes from
the enriched list while its neighbours survive. -/
theorem C10_empty_group_drops_recipe_witness :
    expandItemRecipe exEmptyGroups [] exEmptyGroupRecipe = [] ∧
    enrichedRecipes exEmptyGroups [] ([exPlainRecipe] ++ exEmptyGroupRecipe :: [])
      = enrichedRecipes exEmptyGroups [] [exPlainRecipe]
        ++ enrichedRecipes exEmptyGroups [] [] :=
  ⟨(C10_empty_group_drops_recipe exEmptyGroups [] exEmptyGroupRecipe (by decide)).1,
    (C10_empty_group_drops_recipe exEmptyGroups [] exEmptyGroupRecipe (by decide)).2
      [exPlainRecipe] []⟩
